import Mathlib

/-!
Verification of the structural + textual rich-text diff engine implemented in
`src/RichTextDiffViewer.tsx`.

The development shallowly embeds the component's algorithms:
strings are Lean `String`s (JavaScript strings are sequences of code units;
every input considered here stays within the plane where the two coincide),
DOM trees are a `Dom` inductive, and in-place DOM mutation is modelled by
functions producing transformed trees.  Code paths that call external
collaborators (the `diff-match-patch` character differ, the `dmp` cleanup
passes, the browser's HTML parser behind `innerHTML`) are parameterised over
those collaborators, or use explicitly documented models of them.
-/

namespace RTDiff

/-! ## JavaScript string primitives -/

/-- The non-breaking-space placeholder ` ` that `performDiff` substitutes
for ordinary spaces ("space-sensitive mode"). -/
def nbspChar : Char := ' '

/-- Characters matched by JavaScript's `\s` class (as used by the `/^\s+$/`
tests and `String.prototype.trim` in the source). -/
def isJsSpace (c : Char) : Bool :=
  [' ', '\t', '\n', '\r', '\u000B', '\u000C', ' ', ' ',
   ' ', ' ', ' ', ' ', ' ', ' ', ' ',
   ' ', ' ', ' ', ' ', ' ', ' ', ' ',
   ' ', '　', '﻿'].contains c

/-- Punctuation class `[.,;:!?()]` of the word pattern in
`forceDiffByWords` and `splitIntoWords`. -/
def isPunctChar (c : Char) : Bool :=
  ['.', ',', ';', ':', '!', '?', '(', ')'].contains c

/-- A character matched by `[^\s.,;:!?()]` (a "word" character). -/
def isWordChar (c : Char) : Bool := !isJsSpace c && !isPunctChar c

/-- JavaScript `String.prototype.trim`: strip `\s` characters from both ends. -/
def jsTrim (s : String) : String :=
  ⟨((s.data.dropWhile isJsSpace).reverse.dropWhile isJsSpace).reverse⟩

/-- JavaScript `text.replace(/ /g, " ")` from `performDiff`'s
space-sensitive mode. -/
def mapSpaces (s : String) : String :=
  ⟨s.data.map fun c => if c = ' ' then nbspChar else c⟩

/-- JavaScript `text.replace(/ /g, " ")`, restoring spaces after the
character diff. -/
def restoreSpaces (s : String) : String :=
  ⟨s.data.map fun c => if c = nbspChar then ' ' else c⟩

/-- Whether a string contains the non-breaking space ` `. -/
def hasNbsp (s : String) : Bool := s.data.any (· = nbspChar)

/-- The one-character string consisting of the non-breaking space U+00A0. -/
def nbspStr : String := ⟨[nbspChar]⟩

/-! ## Diff operations

A `DiffOp` is a diff-match-patch tuple `[op, text]` with
`op ∈ {-1 (delete), 0 (equal), 1 (insert)}`. -/

abbrev DiffOp := Int × String

/-- Concatenation of a list of strings, in order. -/
def concatStrs : List String → String
  | [] => ""
  | s :: rest => s ++ concatStrs rest

/-- The old-side reconstruction: concatenate the fragments of all ops whose
operation is not insert (`1`). -/
def reconstructOld (l : List DiffOp) : String :=
  concatStrs ((l.filter fun d => d.1 != 1).map Prod.snd)

/-- The new-side reconstruction: concatenate the fragments of all ops whose
operation is not delete (`-1`). -/
def reconstructNew (l : List DiffOp) : String :=
  concatStrs ((l.filter fun d => d.1 != -1).map Prod.snd)

/-! ## Word tokenization

The regex `/([^\s.,;:!?()]+)|([.,;:!?()])/g` together with the gap handling
in `forceDiffByWords`, and `/([^\s.,;:!?()]+)|([.,;:!?()])|(\s+)/g` in
`splitIntoWords`, both partition a string into maximal word-character runs,
single punctuation characters, and maximal whitespace runs.  `tokenizeF` is
that partition; the fuel argument (always instantiated with the string
length) makes the recursion structural. -/

def tokenizeF : Nat → List Char → List (List Char)
  | 0, _ => []
  | _ + 1, [] => []
  | fuel + 1, c :: rest =>
    if isPunctChar c then [c] :: tokenizeF fuel rest
    else if isJsSpace c then
      (c :: rest.takeWhile isJsSpace) :: tokenizeF fuel (rest.dropWhile isJsSpace)
    else
      (c :: rest.takeWhile isWordChar) :: tokenizeF fuel (rest.dropWhile isWordChar)

/-- Tokenize a string into word / punctuation / whitespace fragments. -/
def tokenize (cs : List Char) : List (List Char) := tokenizeF cs.length cs

/-- JavaScript `/^\s+$/.test(text)`: non-empty and all whitespace. -/
def wsOnly (s : String) : Bool := !s.isEmpty && s.data.all isJsSpace

/-- Embedding of `splitIntoWords` (lines 476-501): empty string gives `[]`,
an all-whitespace string is kept whole, anything else is split by the word
pattern (whose alternatives cover every character, so the final
`lastIndex < text.length` remainder push never fires). -/
def splitIntoWords (text : String) : List String :=
  if text = "" then []
  else if wsOnly text then [text]
  else (tokenize text.data).map String.mk

/-- Embedding of `forceDiffByWords` (lines 342-393).  Unchanged ops are kept
whole; a changed all-whitespace fragment is kept whole; any other changed
fragment is split into word/punctuation tokens with the whitespace gaps
re-emitted as separate fragments of the same operation (the `spaces` pushes
of the source loop), which is exactly the `tokenize` partition. -/
def fdbwFrag (d : DiffOp) : List DiffOp :=
  if d.1 = 0 then [d]
  else if wsOnly d.2 then [d]
  else (tokenize d.2.data).map fun t => (d.1, String.mk t)

def forceDiffByWords (diffs : List DiffOp) : List DiffOp :=
  diffs.flatMap fdbwFrag

/-- Restore spaces in every fragment (the `normalizedDiffs` map of
`performDiff`, lines 327-329). -/
def restoreAll (l : List DiffOp) : List DiffOp :=
  l.map fun d => (d.1, restoreSpaces d.2)

/-- Embedding of `performDiff` (lines 308-339), parameterised over the two
external collaborators: `dm` is `dmp.diff_main` (which may throw), and
`cleanup` is the composition of the in-place
`diff_cleanupSemantic`/`diff_cleanupEfficiency` passes. -/
def performDiffE (dm : String → String → Except String (List DiffOp))
    (cleanup : List DiffOp → List DiffOp) (oldText newText : String) :
    Except String (List DiffOp) :=
  match dm (mapSpaces oldText) (mapSpaces newText) with
  | .error e => .error e
  | .ok diffs => .ok (forceDiffByWords (cleanup (restoreAll diffs)))

/-- The single-equality diff that any LCS-based differ produces on equal
inputs (`[]` on two empty strings). -/
def eqDiffOf (s : String) : List DiffOp := if s = "" then [] else [(0, s)]

/-- Modelled from the spec: the external character-diff collaborator
(`diff-match-patch`'s `diff_main`, spec section 4.3 steps 1-2), which is not
part of this repository.  The model keeps the two contracts the code relies
upon: the output reconstructs both inputs, and equal inputs produce a single
`equal` op (the empty list for two empty strings). -/
def dmModel (a b : String) : List DiffOp :=
  if a = b then eqDiffOf a
  else if a = "" then [(1, b)]
  else if b = "" then [(-1, a)]
  else [(-1, a), (1, b)]

/-- The model differ wrapped as a non-throwing collaborator. -/
def dmModelE (a b : String) : Except String (List DiffOp) := .ok (dmModel a b)

/-- A cleanup collaborator that performs no merging (both real cleanup passes
preserve the reconstruction contract; the identity trivially does). -/
def cleanupId : List DiffOp → List DiffOp := fun l => l

/-! ### Basic lemmas about the string primitives -/

theorem concatStrs_append (a b : List String) :
    concatStrs (a ++ b) = concatStrs a ++ concatStrs b := by
  induction a with
  | nil => simp [concatStrs]
  | cons x xs ih => simp [concatStrs, ih, String.append_assoc]

theorem string_mk_append (a b : List Char) :
    (String.mk (a ++ b) : String) = String.mk a ++ String.mk b := by
  apply String.ext
  simp [String.data_append]

theorem tokenizeF_concat (fuel : Nat) :
    ∀ cs : List Char, cs.length ≤ fuel →
      concatStrs ((tokenizeF fuel cs).map String.mk) = String.mk cs := by
  induction fuel with
  | zero =>
    intro cs h
    have : cs = [] := List.eq_nil_of_length_eq_zero (Nat.le_zero.mp h)
    subst this
    rfl
  | succ n ih =>
    intro cs h
    match cs with
    | [] => rfl
    | c :: rest =>
      by_cases hp : isPunctChar c = true
      · have hr : rest.length ≤ n := by simpa using h
        simp only [tokenizeF, hp, if_true, List.map_cons, concatStrs, ih rest hr]
        rw [← string_mk_append]
        rfl
      · have hp' : isPunctChar c = false := by simpa using hp
        by_cases hs : isJsSpace c = true
        · have hlen : (rest.dropWhile isJsSpace).length ≤ n := by
            have h1 : (rest.dropWhile isJsSpace).length ≤ rest.length :=
              (List.dropWhile_sublist _).length_le
            have h2 : rest.length ≤ n := by simpa using h
            exact Nat.le_trans h1 h2
          simp only [tokenizeF, hp', if_false, hs, if_true, List.map_cons, concatStrs,
            ih _ hlen]
          rw [← string_mk_append]
          apply congrArg String.mk
          simp [List.takeWhile_append_dropWhile]
        · have hs' : isJsSpace c = false := by simpa using hs
          have hlen : (rest.dropWhile isWordChar).length ≤ n := by
            have h1 : (rest.dropWhile isWordChar).length ≤ rest.length :=
              (List.dropWhile_sublist _).length_le
            have h2 : rest.length ≤ n := by simpa using h
            exact Nat.le_trans h1 h2
          simp only [tokenizeF, hp', if_false, hs', List.map_cons, concatStrs, ih _ hlen]
          rw [← string_mk_append]
          apply congrArg String.mk
          simp [List.takeWhile_append_dropWhile]

/-- The word tokenization partitions a string: its fragments concatenate back
to the input. -/
theorem tokenize_concat (cs : List Char) :
    concatStrs ((tokenize cs).map String.mk) = String.mk cs :=
  tokenizeF_concat cs.length cs (Nat.le_refl _)

theorem reconstructOld_append (a b : List DiffOp) :
    reconstructOld (a ++ b) = reconstructOld a ++ reconstructOld b := by
  simp [reconstructOld, List.filter_append, concatStrs_append]

theorem reconstructNew_append (a b : List DiffOp) :
    reconstructNew (a ++ b) = reconstructNew a ++ reconstructNew b := by
  simp [reconstructNew, List.filter_append, concatStrs_append]

theorem reconstructOld_fdbwFrag (d : DiffOp) :
    reconstructOld (fdbwFrag d) = reconstructOld [d] := by
  by_cases h0 : d.1 = 0
  · simp [fdbwFrag, h0]
  · by_cases hw : wsOnly d.2 = true
    · simp [fdbwFrag, h0, hw]
    · have hfrag : fdbwFrag d = (tokenize d.2.data).map fun t => (d.1, String.mk t) := by
        simp [fdbwFrag, h0, hw]
      by_cases h1 : d.1 = 1
      · have hnil : ((fdbwFrag d).filter fun x => x.1 != 1) = [] := by
          rw [hfrag]
          apply List.filter_eq_nil_iff.mpr
          intro x hx
          rcases List.mem_map.mp hx with ⟨t, _, rfl⟩
          simp [h1]
        have hnil2 : (([d] : List DiffOp).filter fun x => x.1 != 1) = [] := by
          simp [h1]
        rw [reconstructOld, reconstructOld, hnil, hnil2]
      · have hall : ((fdbwFrag d).filter fun x => x.1 != 1) = fdbwFrag d := by
          apply List.filter_eq_self.mpr
          intro x hx
          rw [hfrag] at hx
          rcases List.mem_map.mp hx with ⟨t, _, rfl⟩
          simpa using h1
        have hall2 : (([d] : List DiffOp).filter fun x => x.1 != 1) = [d] := by
          simp [h1]
        rw [reconstructOld, reconstructOld, hall, hall2, hfrag]
        have hsnd : ((tokenize d.2.data).map fun t => ((d.1, String.mk t) : DiffOp)).map
            Prod.snd = (tokenize d.2.data).map String.mk := by
          simp [List.map_map, Function.comp]
        rw [hsnd, tokenize_concat]
        simp [concatStrs]

theorem reconstructNew_fdbwFrag (d : DiffOp) :
    reconstructNew (fdbwFrag d) = reconstructNew [d] := by
  by_cases h0 : d.1 = 0
  · simp [fdbwFrag, h0]
  · by_cases hw : wsOnly d.2 = true
    · simp [fdbwFrag, h0, hw]
    · have hfrag : fdbwFrag d = (tokenize d.2.data).map fun t => (d.1, String.mk t) := by
        simp [fdbwFrag, h0, hw]
      by_cases h1 : d.1 = -1
      · have hnil : ((fdbwFrag d).filter fun x => x.1 != -1) = [] := by
          rw [hfrag]
          apply List.filter_eq_nil_iff.mpr
          intro x hx
          rcases List.mem_map.mp hx with ⟨t, _, rfl⟩
          simp [h1]
        have hnil2 : (([d] : List DiffOp).filter fun x => x.1 != -1) = [] := by
          simp [h1]
        rw [reconstructNew, reconstructNew, hnil, hnil2]
      · have hall : ((fdbwFrag d).filter fun x => x.1 != -1) = fdbwFrag d := by
          apply List.filter_eq_self.mpr
          intro x hx
          rw [hfrag] at hx
          rcases List.mem_map.mp hx with ⟨t, _, rfl⟩
          simpa using h1
        have hall2 : (([d] : List DiffOp).filter fun x => x.1 != -1) = [d] := by
          simp [h1]
        rw [reconstructNew, reconstructNew, hall, hall2, hfrag]
        have hsnd : ((tokenize d.2.data).map fun t => ((d.1, String.mk t) : DiffOp)).map
            Prod.snd = (tokenize d.2.data).map String.mk := by
          simp [List.map_map, Function.comp]
        rw [hsnd, tokenize_concat]
        simp [concatStrs]

theorem reconstructOld_forceDiffByWords (l : List DiffOp) :
    reconstructOld (forceDiffByWords l) = reconstructOld l := by
  induction l with
  | nil => rfl
  | cons d rest ih =>
    have hsplit : forceDiffByWords (d :: rest) = fdbwFrag d ++ forceDiffByWords rest := by
      simp [forceDiffByWords]
    rw [hsplit, reconstructOld_append, ih, show (d :: rest) = [d] ++ rest from rfl,
      reconstructOld_append, reconstructOld_fdbwFrag]

theorem reconstructNew_forceDiffByWords (l : List DiffOp) :
    reconstructNew (forceDiffByWords l) = reconstructNew l := by
  induction l with
  | nil => rfl
  | cons d rest ih =>
    have hsplit : forceDiffByWords (d :: rest) = fdbwFrag d ++ forceDiffByWords rest := by
      simp [forceDiffByWords]
    rw [hsplit, reconstructNew_append, ih, show (d :: rest) = [d] ++ rest from rfl,
      reconstructNew_append, reconstructNew_fdbwFrag]

theorem restoreSpaces_append (a b : String) :
    restoreSpaces (a ++ b) = restoreSpaces a ++ restoreSpaces b := by
  apply String.ext
  simp [restoreSpaces, String.data_append]

theorem concatStrs_singleton (s : String) : concatStrs [s] = s := by
  show s ++ "" = s
  exact String.append_empty s

theorem reconstructOld_restoreAll (l : List DiffOp) :
    reconstructOld (restoreAll l) = restoreSpaces (reconstructOld l) := by
  induction l with
  | nil => rfl
  | cons d rest ih =>
    have hcons : restoreAll (d :: rest) = [(d.1, restoreSpaces d.2)] ++ restoreAll rest := rfl
    have hsingle : reconstructOld [(d.1, restoreSpaces d.2)] =
        restoreSpaces (reconstructOld [d]) := by
      by_cases h1 : d.1 = 1
      · have : restoreSpaces "" = "" := rfl
        simp [reconstructOld, h1, concatStrs, this]
      · have hne : (d.1 != 1) = true := by simpa using h1
        simp only [reconstructOld, List.filter_cons, hne, if_true, List.filter_nil,
          List.map_cons, List.map_nil, concatStrs_singleton]
    rw [hcons, reconstructOld_append, hsingle, show (d :: rest) = [d] ++ rest from rfl,
      reconstructOld_append, restoreSpaces_append, ih]

theorem reconstructNew_restoreAll (l : List DiffOp) :
    reconstructNew (restoreAll l) = restoreSpaces (reconstructNew l) := by
  induction l with
  | nil => rfl
  | cons d rest ih =>
    have hcons : restoreAll (d :: rest) = [(d.1, restoreSpaces d.2)] ++ restoreAll rest := rfl
    have hsingle : reconstructNew [(d.1, restoreSpaces d.2)] =
        restoreSpaces (reconstructNew [d]) := by
      by_cases h1 : d.1 = -1
      · have : restoreSpaces "" = "" := rfl
        simp [reconstructNew, h1, concatStrs, this]
      · have hne : (d.1 != -1) = true := by simpa using h1
        simp only [reconstructNew, List.filter_cons, hne, if_true, List.filter_nil,
          List.map_cons, List.map_nil, concatStrs_singleton]
    rw [hcons, reconstructNew_append, hsingle, show (d :: rest) = [d] ++ rest from rfl,
      reconstructNew_append, restoreSpaces_append, ih]

theorem restoreSpaces_mapSpaces (s : String) (h : hasNbsp s = false) :
    restoreSpaces (mapSpaces s) = s := by
  apply String.ext
  simp only [restoreSpaces, mapSpaces, List.map_map]
  have : ∀ c ∈ s.data, ((fun c => if c = nbspChar then ' ' else c) ∘
      fun c => if c = ' ' then nbspChar else c) c = c := by
    intro c hc
    have hcn : ¬(c = nbspChar) := by
      intro hceq
      have htrue : hasNbsp s = true := by
        have : ∃ x ∈ s.data, (fun y => decide (y = nbspChar)) x = true :=
          ⟨c, hc, by simp [hceq]⟩
        simpa [hasNbsp] using List.any_eq_true.mpr this
      rw [h] at htrue
      exact Bool.false_ne_true htrue
    by_cases hsp : c = ' '
    · simp [Function.comp, hsp, nbspChar]
    · simp [Function.comp, hsp, hcn]
  exact List.map_congr_left this |>.trans (List.map_id _)

/-! ## Claim C1: reconstruction of both inputs by the word diff -/

/-- C1 (amended): for every pair of input strings containing no literal
non-breaking space U+00A0, and for any character-diff collaborator `dm` whose
output on the space-mapped inputs reconstructs them, and any cleanup
collaborator preserving the two reconstructions, the `DiffOp` sequence
returned by `performDiff` (including the `forceDiffByWords` re-tokenization)
reconstructs the old string by concatenating the fragments of all ops with
operation ≠ insert, and the new string from all ops with operation ≠ delete.
The U+00A0 restriction is forced by `c1_counterexample`: the space-sensitive
mode maps spaces to U+00A0 and back, so a literal U+00A0 in an input is
turned into a plain space by the reconstruction. -/
theorem c1_reconstruction
    (dm : String → String → Except String (List DiffOp))
    (cleanup : List DiffOp → List DiffOp) (A B : String) (l r : List DiffOp)
    (hdm : dm (mapSpaces A) (mapSpaces B) = .ok l)
    (hold : reconstructOld l = mapSpaces A)
    (hnew : reconstructNew l = mapSpaces B)
    (hcl : ∀ x, reconstructOld (cleanup x) = reconstructOld x ∧
      reconstructNew (cleanup x) = reconstructNew x)
    (hA : hasNbsp A = false) (hB : hasNbsp B = false)
    (hres : performDiffE dm cleanup A B = .ok r) :
    reconstructOld r = A ∧ reconstructNew r = B := by
  have hr : r = forceDiffByWords (cleanup (restoreAll l)) := by
    rw [performDiffE, hdm] at hres
    exact (Except.ok.injEq _ _).mp hres.symm
  subst hr
  constructor
  · rw [reconstructOld_forceDiffByWords, (hcl _).1, reconstructOld_restoreAll, hold,
      restoreSpaces_mapSpaces A hA]
  · rw [reconstructNew_forceDiffByWords, (hcl _).2, reconstructNew_restoreAll, hnew,
      restoreSpaces_mapSpaces B hB]

/-- Witness for C1 at a concrete input: `A = "a b"`, `B = "c"` with the
modelled collaborators. -/
theorem c1_witness :
    reconstructOld (forceDiffByWords (cleanupId (restoreAll
      (dmModel (mapSpaces "a b") (mapSpaces "c"))))) = "a b" ∧
    reconstructNew (forceDiffByWords (cleanupId (restoreAll
      (dmModel (mapSpaces "a b") (mapSpaces "c"))))) = "c" :=
  c1_reconstruction dmModelE cleanupId "a b" "c"
    (dmModel (mapSpaces "a b") (mapSpaces "c"))
    (forceDiffByWords (cleanupId (restoreAll (dmModel (mapSpaces "a b") (mapSpaces "c")))))
    rfl (by decide) (by decide) (fun x => ⟨rfl, rfl⟩) (by decide) (by decide) rfl

/-- Counterexample to C1 as stated: on the input pair `(" ", " ")` (both the
one-character string U+00A0) the collaborator returns the single equal op on
the unchanged mapped text, yet `performDiff`'s result reconstructs the
one-character string `" "` (a plain space), not the original input, because
`performDiff` restores every U+00A0 to a plain space. -/
theorem c1_counterexample :
    performDiffE dmModelE cleanupId nbspStr nbspStr = .ok [(0, " ")] ∧
    reconstructOld [((0 : Int), " ")] ≠ nbspStr :=
  ⟨rfl, by decide⟩

/-! ## Claim C10: splitIntoWords partitions its input -/

/-- A word entry of `processContentWithWords`: `{ start, end, text, isChanged }`
(the `end` field is called `stop` here because `end` is reserved in Lean). -/
structure WordSeg where
  start : Nat
  stop : Nat
  text : String
  isChanged : Bool
deriving Repr, DecidableEq

/-- The inner loops of `processContentWithWords` (lines 444-473): every diff
fragment is split into words, and each word receives the range
`[position, position + word.length)` with `position` accumulating across all
fragments starting from 0. -/
def segsGo : List (Int × String) → Nat → List WordSeg
  | [], _ => []
  | (op, w) :: rest, pos =>
    ⟨pos, pos + w.length, w, op != 0⟩ :: segsGo rest (pos + w.length)

/-- Embedding of `processContentWithWords` (lines 444-473).  The `content`
parameter is kept because the source takes it, but — as in the source — it is
not consulted: positions come solely from the diff fragments' words. -/
def processContentWithWords (content : String) (diffs : List DiffOp) :
    List WordSeg :=
  let _ := content
  segsGo (diffs.flatMap fun d => (splitIntoWords d.2).map fun w => (d.1, w)) 0

/-- Word entries tile contiguously from `pos`: each entry starts where the
previous one stopped and spans exactly its text. -/
def wordsTile : Nat → List WordSeg → Prop
  | _, [] => True
  | pos, w :: rest => w.start = pos ∧ w.stop = w.start + w.text.length ∧
      wordsTile w.stop rest

theorem segsGo_tiles (l : List (Int × String)) :
    ∀ pos : Nat, wordsTile pos (segsGo l pos) := by
  induction l with
  | nil => intro pos; trivial
  | cons d rest ih =>
    intro pos
    exact ⟨rfl, rfl, ih (pos + d.2.length)⟩

theorem splitIntoWords_concat (t : String) :
    concatStrs (splitIntoWords t) = t := by
  by_cases h0 : t = ""
  · subst h0; rfl
  · by_cases hw : wsOnly t = true
    · simp [splitIntoWords, h0, hw, concatStrs_singleton]
    · have : splitIntoWords t = (tokenize t.data).map String.mk := by
        simp [splitIntoWords, h0, hw]
      rw [this, tokenize_concat]

/-- C10: for every input string `t`, concatenating the fragments returned by
`splitIntoWords t` in order yields exactly `t` — the tokenization partitions
the string without dropping, duplicating or reordering characters — and the
word positions built on top of it by `processContentWithWords` tile the
content contiguously from offset 0. -/
theorem c10_splitIntoWords_partition :
    (∀ t : String, concatStrs (splitIntoWords t) = t) ∧
    (∀ (content : String) (diffs : List DiffOp),
      wordsTile 0 (processContentWithWords content diffs)) :=
  ⟨splitIntoWords_concat, fun _ _ => segsGo_tiles _ 0⟩

/-! ## DOM model

A `Dom` node is either a text node or an element with a tag, an attribute
list (in document order) and the list of all its child nodes (text and
element children interleaved, exactly as `childNodes` presents them). -/

inductive Dom where
  | text (s : String) : Dom
  | elem (tag : String) (attrs : List (String × String)) (children : List Dom) : Dom
deriving Repr

mutual

/-- The `textContent` of a node: concatenation of all descendant text. -/
def domText : Dom → String
  | .text s => s
  | .elem _ _ cs => domTextL cs

/-- The `textContent` of a forest of siblings. -/
def domTextL : List Dom → String
  | [] => ""
  | c :: cs => domText c ++ domTextL cs

end

/-- Whether a node is an element (`nodeType === Node.ELEMENT_NODE`). -/
def isElemNode : Dom → Bool
  | .text _ => false
  | .elem _ _ _ => true

mutual

def domBEq : Dom → Dom → Bool
  | .text s, .text t => s == t
  | .text _, .elem _ _ _ => false
  | .elem _ _ _, .text _ => false
  | .elem t1 a1 c1, .elem t2 a2 c2 => t1 == t2 && a1 == a2 && domBEqL c1 c2

def domBEqL : List Dom → List Dom → Bool
  | [], [] => true
  | [], _ :: _ => false
  | _ :: _, [] => false
  | x :: xs, y :: ys => domBEq x y && domBEqL xs ys

end

mutual

theorem domBEq_iff : ∀ a b : Dom, domBEq a b = true ↔ a = b
  | .text s, .text t => by
    rw [domBEq]
    simp
  | .text s, .elem t2 a2 c2 => by
    rw [domBEq]
    simp
  | .elem t1 a1 c1, .text t => by
    rw [domBEq]
    simp
  | .elem t1 a1 c1, .elem t2 a2 c2 => by
    rw [domBEq]
    rw [Bool.and_eq_true, Bool.and_eq_true]
    rw [domBEqL_iff c1 c2]
    simp only [beq_iff_eq, Dom.elem.injEq]
    tauto

theorem domBEqL_iff : ∀ as bs : List Dom, domBEqL as bs = true ↔ as = bs
  | [], [] => by rw [domBEqL]; simp
  | [], _ :: _ => by rw [domBEqL]; simp
  | _ :: _, [] => by rw [domBEqL]; simp
  | x :: xs, y :: ys => by
    rw [domBEqL, Bool.and_eq_true, domBEq_iff x y, domBEqL_iff xs ys]
    simp

end

instance : DecidableEq Dom := fun a b => decidable_of_iff _ (domBEq_iff a b)

/-- JavaScript `getAttribute`: the value of the first attribute with the
given name, if any. -/
def getAttr (attrs : List (String × String)) (name : String) : Option String :=
  (attrs.find? fun a => a.1 == name).map Prod.snd

/-- The `class` attribute value of an attribute list (empty if absent). -/
def classAttr (attrs : List (String × String)) : String :=
  (getAttr attrs "class").getD ""

/-! ## Claim C5: no content loss when splitting a text node

Both `applyWordHighlighting` (lines 582-645) and `applyTextNodeChanges`
(lines 920-948) split a text node as
`content.substring(0, localStart)` / `content.substring(localStart, localEnd)`
/ `content.substring(localEnd)`.  `jsSubstring` embeds JavaScript's
two-argument `String.prototype.substring` (clamping and argument swapping);
the local offsets at both call sites are produced by `Math.max(0, ...)` /
`Math.min(length, ...)`, which is truncated subtraction and `min` on `Nat`. -/

def jsSubstring (s : String) (a b : Nat) : String :=
  ⟨(s.data.take (max a b)).drop (min a b)⟩

/-- One-argument `substring(a)`: the suffix from `a`. -/
def jsSubstringFrom (s : String) (a : Nat) : String :=
  ⟨s.data.drop a⟩

/-- The `before` / `highlighted` / `after` split of `applyWordHighlighting`
(lines 588-590). -/
def wordHighlightParts (content : String) (ls le : Nat) : String × String × String :=
  (jsSubstring content 0 ls, jsSubstring content ls le, jsSubstringFrom content le)

/-- The `before` / `middle` / `after` split of `applyTextNodeChanges`
(lines 925-927). -/
def textNodeChangeParts (originalText : String) (ls le : Nat) :
    String × String × String :=
  (jsSubstring originalText 0 ls, jsSubstring originalText ls le,
    jsSubstringFrom originalText le)

theorem jsSubstring_split (s : String) (ls le : Nat) (h : ls ≤ le) :
    jsSubstring s 0 ls ++ jsSubstring s ls le ++ jsSubstringFrom s le = s := by
  apply String.ext
  rw [String.data_append, String.data_append]
  show ((s.data.take (max 0 ls)).drop (min 0 ls)) ++
    ((s.data.take (max ls le)).drop (min ls le)) ++ s.data.drop le = s.data
  rw [Nat.zero_max, Nat.zero_min, Nat.max_eq_right h, Nat.min_eq_left h,
    List.drop_zero, List.drop_take]
  have hdd : s.data.drop le = (s.data.drop ls).drop (le - ls) := by
    rw [List.drop_drop, Nat.add_sub_cancel' h]
  rw [hdd, List.append_assoc, List.take_append_drop, List.take_append_drop]

/-- C5: for every text node split by the highlight application, the emitted
parts — text before the range, the highlighted middle, and the text after —
concatenate exactly to the original text node content, both for the split
computed in `applyWordHighlighting` and for the one in
`applyTextNodeChanges` (the guard `localStart < localEnd` at both call sites
gives `ls ≤ le`). -/
theorem c5_no_content_loss (s : String) (ls le : Nat) (h : ls ≤ le) :
    ((wordHighlightParts s ls le).1 ++ (wordHighlightParts s ls le).2.1 ++
      (wordHighlightParts s ls le).2.2 = s) ∧
    ((textNodeChangeParts s ls le).1 ++ (textNodeChangeParts s ls le).2.1 ++
      (textNodeChangeParts s ls le).2.2 = s) :=
  ⟨jsSubstring_split s ls le h, jsSubstring_split s ls le h⟩

/-- Witness for C5 at a concrete split: `"hello world"` split at `[3, 8)`. -/
theorem c5_witness :
    ((wordHighlightParts "hello world" 3 8).1 ++
      (wordHighlightParts "hello world" 3 8).2.1 ++
      (wordHighlightParts "hello world" 3 8).2.2 = "hello world") ∧
    ((textNodeChangeParts "hello world" 3 8).1 ++
      (textNodeChangeParts "hello world" 3 8).2.1 ++
      (textNodeChangeParts "hello world" 3 8).2.2 = "hello world") :=
  c5_no_content_loss "hello world" 3 8 (by decide)

/-! ## Claim C7: whitespace-only intersections are never wrapped -/

/-- The marker span built by `applyWordHighlighting` (lines 621-636): class
`diff-${changeType}`, the parent's inline style if non-empty, and the
parent's class list appended after the marker class (`classList.add` skips a
token already present; the parent's own class list is duplicate-free, so the
only token that could be skipped is a literal `diff-${changeType}` already on
the parent, which no input of interest contains). -/
def mkHighlightSpan (changeType parentStyle parentClass highlighted : String) : Dom :=
  let baseClass := "diff-" ++ changeType
  let cls := if parentClass ≠ "" then baseClass ++ " " ++ parentClass else baseClass
  .elem "span"
    ([("class", cls)] ++ (if parentStyle ≠ "" then [("style", parentStyle)] else []))
    [.text highlighted]

/-- The body of `applyWordHighlighting`'s per-affected-node loop
(lines 582-645), as a function from the node's current content, the local
range, and the parent's preserved attributes, to the replacement node list:
`none` when the node is skipped (whitespace-only intersection, or no parent),
`some parts` when the text node is split and the middle wrapped. -/
def wordHighlightNodeStep (content : String) (ls le : Nat) (changeType : String)
    (parentAttrs : Option (String × String)) : Option (List Dom) :=
  if jsTrim (jsSubstring content ls le) = "" then none
  else
    match parentAttrs with
    | none => none
    | some (pStyle, pClass) =>
      let parts := wordHighlightParts content ls le
      some ((if parts.1 ≠ "" then [Dom.text parts.1] else []) ++
        [mkHighlightSpan changeType pStyle pClass parts.2.1] ++
        (if parts.2.2 ≠ "" then [Dom.text parts.2.2] else []))

theorem jsTrim_of_allSpace (s : String) (h : ∀ c ∈ s.data, isJsSpace c = true) :
    jsTrim s = "" := by
  have hdrop : s.data.dropWhile isJsSpace = [] := List.dropWhile_eq_nil_iff.mpr h
  show (⟨((s.data.dropWhile isJsSpace).reverse.dropWhile isJsSpace).reverse⟩ : String) = ""
  rw [hdrop]
  rfl

/-- C7: in `applyWordHighlighting`, a changed word group whose intersected
substring within a text node consists entirely of whitespace never produces a
marker wrap: the per-node step returns no replacement, so no span element is
inserted and the text node is left untouched for that group. -/
theorem c7_whitespace_never_wrapped (content : String) (ls le : Nat)
    (changeType : String) (parentAttrs : Option (String × String))
    (h : ∀ c ∈ (jsSubstring content ls le).data, isJsSpace c = true) :
    wordHighlightNodeStep content ls le changeType parentAttrs = none := by
  rw [wordHighlightNodeStep.eq_def, jsTrim_of_allSpace _ h]
  rfl

/-- Witness for C7: the intersected substring `" "` of `"a b"` over `[1, 2)`
is whitespace-only, so the step wraps nothing. -/
theorem c7_witness :
    wordHighlightNodeStep "a b" 1 2 "removed" (some ("", "")) = none :=
  c7_whitespace_never_wrapped "a b" 1 2 "removed" (some ("", "")) (by decide)

/-! ## Whitespace-run marking (`markWhitespaceChanges`, lines 806-861)

The function walks every text node, builds a `newContent` markup string in
which each run of two or more literal spaces is wrapped in
`<span class="diff-whitespace" style="white-space: pre-wrap;">...</span>`,
and — when a run was found — re-parses that markup through
`tempSpan.innerHTML = newContent` and replaces the text node by `tempSpan`.
`wsSegments` is the segmentation performed by the `/( {2,})/g` loop;
`parseWsFragF` models the browser's `innerHTML` fragment parse for exactly
the markup this producer emits (our span tags open and close elements,
character entities in text are decoded, any other tag token is consumed). -/

/-- Whether a character list contains two consecutive literal spaces. -/
def hasDbl : List Char → Bool
  | [] => false
  | [_] => false
  | a :: b :: rest => (a = ' ' && b = ' ') || hasDbl (b :: rest)

/-- Segmentation of a text into plain single characters and maximal runs of
two or more literal spaces, mirroring the `/( {2,})/g` match loop: the fuel
(instantiated with the length) makes the recursion structural. -/
def wsSegmentsF : Nat → List Char → List (Bool × List Char)
  | 0, _ => []
  | _ + 1, [] => []
  | fuel + 1, c :: rest =>
    if c = ' ' && rest.head? == some ' ' then
      (true, c :: rest.takeWhile (· = ' ')) :: wsSegmentsF fuel (rest.dropWhile (· = ' '))
    else (false, [c]) :: wsSegmentsF fuel rest

def wsSegments (cs : List Char) : List (Bool × List Char) :=
  wsSegmentsF cs.length cs

/-- Concatenation of the segment contents. -/
def segContents (segs : List (Bool × List Char)) : List Char :=
  segs.foldr (fun seg acc => seg.2 ++ acc) []

/-- The opening tag emitted for a run (source line 837). -/
def wsOpenChars : List Char :=
  ("<span class=\"diff-whitespace\" style=\"white-space: pre-wrap;\">").data

/-- The closing tag emitted for a run. -/
def wsCloseChars : List Char := "</span>".data

/-- The `newContent` markup string built by the match loop: plain characters
are copied, runs are wrapped. -/
def renderSegs (segs : List (Bool × List Char)) : List Char :=
  segs.foldr
    (fun seg acc => (if seg.1 then wsOpenChars ++ seg.2 ++ wsCloseChars else seg.2) ++ acc) []

def wsNewContent (cs : List Char) : List Char := renderSegs (wsSegments cs)

/-- Character-entity decoding performed by the browser when parsing the raw
text that `markWhitespaceChanges` feeds back through `innerHTML`. -/
def decodeEntities : List Char → List Char
  | '&' :: 'a' :: 'm' :: 'p' :: ';' :: rest => '&' :: decodeEntities rest
  | '&' :: 'l' :: 't' :: ';' :: rest => '<' :: decodeEntities rest
  | '&' :: 'g' :: 't' :: ';' :: rest => '>' :: decodeEntities rest
  | c :: rest => c :: decodeEntities rest
  | [] => []

/-- Whether the second list starts with the first. -/
def startsChars : List Char → List Char → Bool
  | [], _ => true
  | _ :: _, [] => false
  | p :: ps, c :: cs => p == c && startsChars ps cs

/-- Modelled from the spec: the browser `innerHTML` fragment parser behind
`tempSpan.innerHTML = newContent` (an external collaborator of the
orchestrator, spec section 4.5), restricted to the markup this component
produces: the literal `diff-whitespace` span tags delimit span elements, any
other `<...>` token is consumed as a tag, and character entities in text are
decoded. -/
def wsAfter (cs : List Char) : List Char := cs.drop wsOpenChars.length

def wsInner (cs : List Char) : List Char := (wsAfter cs).takeWhile (· ≠ '<')

def wsAfter2 (cs : List Char) : List Char := (wsAfter cs).drop (wsInner cs).length

def wsRest2 (cs : List Char) : List Char :=
  if startsChars wsCloseChars (wsAfter2 cs) then (wsAfter2 cs).drop wsCloseChars.length
  else wsAfter2 cs

/-- The attribute list of the parsed `diff-whitespace` span. -/
def wsSpanAttrs : List (String × String) :=
  [("class", "diff-whitespace"), ("style", "white-space: pre-wrap;")]

def parseWsFragF : Nat → List Char → List Dom
  | 0, _ => []
  | _ + 1, [] => []
  | fuel + 1, c :: rest =>
    if startsChars wsOpenChars (c :: rest) then
      Dom.elem "span" wsSpanAttrs
          (if wsInner (c :: rest) = [] then [] else [Dom.text ⟨wsInner (c :: rest)⟩]) ::
        parseWsFragF fuel (wsRest2 (c :: rest))
    else if c = '<' then
      parseWsFragF fuel ((rest.dropWhile (· ≠ '>')).drop 1)
    else
      Dom.text ⟨decodeEntities ((c :: rest).takeWhile (· ≠ '<'))⟩ ::
        parseWsFragF fuel ((c :: rest).drop ((c :: rest).takeWhile (· ≠ '<')).length)

def parseWsFrag (cs : List Char) : List Dom := parseWsFragF cs.length cs

/-- The per-text-node replacement of `markWhitespaceChanges`: when the built
markup is non-empty and differs from the content (i.e. at least one run was
wrapped), the text node is replaced by a `tempSpan` wrapper whose children
are the parse of the markup; otherwise the node is untouched. -/
def wsReplaceText (s : String) : Option Dom :=
  let nc := wsNewContent s.data
  if nc ≠ [] ∧ nc ≠ s.data then some (.elem "span" [] (parseWsFrag nc)) else none

mutual

/-- Apply the whitespace-run marking to one node (text nodes everywhere in
the tree, as collected by the `TreeWalker`; replacement subtrees are not
revisited because the walker collects all text nodes before mutating). -/
def markWsNode : Dom → Dom
  | .text s =>
    match wsReplaceText s with
    | some d => d
    | none => .text s
  | .elem t a cs => .elem t a (markWsList cs)

def markWsList : List Dom → List Dom
  | [] => []
  | c :: cs => markWsNode c :: markWsList cs

end

/-- Embedding of `markWhitespaceChanges` on a container's children. -/
def markWhitespaceChangesF (f : List Dom) : List Dom := markWsList f

theorem wsSegmentsF_cons_run (n : Nat) (c : Char) (rest : List Char)
    (hg : (c = ' ' && rest.head? == some ' ') = true) :
    wsSegmentsF (n + 1) (c :: rest) =
      (true, c :: rest.takeWhile (· = ' ')) ::
        wsSegmentsF n (rest.dropWhile (· = ' ')) := by
  simp [wsSegmentsF, hg]

theorem wsSegmentsF_cons_plain (n : Nat) (c : Char) (rest : List Char)
    (hg : (c = ' ' && rest.head? == some ' ') = false) :
    wsSegmentsF (n + 1) (c :: rest) = (false, [c]) :: wsSegmentsF n rest := by
  simp [wsSegmentsF, hg]

theorem segContents_cons (seg : Bool × List Char) (segs : List (Bool × List Char)) :
    segContents (seg :: segs) = seg.2 ++ segContents segs := rfl

theorem wsSegmentsF_contents (fuel : Nat) :
    ∀ cs : List Char, cs.length ≤ fuel →
      segContents (wsSegmentsF fuel cs) = cs := by
  induction fuel with
  | zero =>
    intro cs h
    have : cs = [] := List.eq_nil_of_length_eq_zero (Nat.le_zero.mp h)
    subst this; rfl
  | succ n ih =>
    intro cs h
    match cs with
    | [] => rfl
    | c :: rest =>
      by_cases hg : (c = ' ' && rest.head? == some ' ') = true
      · have hlen : (rest.dropWhile (· = ' ')).length ≤ n := by
          have h1 : (rest.dropWhile (· = ' ')).length ≤ rest.length :=
            (List.dropWhile_sublist _).length_le
          have h2 : rest.length ≤ n := by simpa using h
          exact Nat.le_trans h1 h2
        rw [wsSegmentsF_cons_run n c rest hg, segContents_cons, ih _ hlen]
        simp [List.takeWhile_append_dropWhile]
      · have hg' : (c = ' ' && rest.head? == some ' ') = false := by simpa using hg
        have hlen : rest.length ≤ n := by simpa using h
        rw [wsSegmentsF_cons_plain n c rest hg', segContents_cons, ih _ hlen]
        rfl

theorem wsSegmentsF_runs (fuel : Nat) :
    ∀ cs : List Char, ∀ seg ∈ wsSegmentsF fuel cs, seg.1 = true →
      (∀ ch ∈ seg.2, ch = ' ') ∧ 2 ≤ seg.2.length := by
  induction fuel with
  | zero => intro cs seg hmem; cases hmem
  | succ n ih =>
    intro cs seg hmem hrun
    match cs with
    | [] => cases hmem
    | c :: rest =>
      by_cases hg : (c = ' ' && rest.head? == some ' ') = true
      · rw [wsSegmentsF_cons_run n c rest hg] at hmem
        rcases List.mem_cons.mp hmem with hseg | hmem'
        · subst hseg
          have hc : c = ' ' := by
            have := (Bool.and_eq_true _ _).mp hg
            exact of_decide_eq_true this.1
          have hhead : rest.head? = some ' ' := by
            have := (Bool.and_eq_true _ _).mp hg
            simpa using this.2
          constructor
          · intro ch hch
            rcases List.mem_cons.mp hch with rfl | hch'
            · exact hc
            · exact of_decide_eq_true (List.mem_takeWhile_imp (p := fun x => decide (x = ' ')) hch')
          · match rest, hhead with
            | r :: rest', hh =>
              have hr : r = ' ' := by simpa using hh
              have htw : (r :: rest').takeWhile (· = ' ') =
                  r :: rest'.takeWhile (· = ' ') := by
                simp [List.takeWhile_cons, hr]
              show 2 ≤ (c :: (r :: rest').takeWhile (· = ' ')).length
              rw [htw]
              simp
        · exact ih _ seg hmem' hrun
      · have hg' : (c = ' ' && rest.head? == some ' ') = false := by simpa using hg
        rw [wsSegmentsF_cons_plain n c rest hg'] at hmem
        rcases List.mem_cons.mp hmem with hseg | hmem'
        · subst hseg; cases hrun
        · exact ih _ seg hmem' hrun

theorem wsSegmentsF_plains (fuel : Nat) :
    ∀ cs : List Char, ∀ seg ∈ wsSegmentsF fuel cs, seg.1 = false →
      seg.2.length = 1 := by
  induction fuel with
  | zero => intro cs seg hmem; cases hmem
  | succ n ih =>
    intro cs seg hmem hpl
    match cs with
    | [] => cases hmem
    | c :: rest =>
      by_cases hg : (c = ' ' && rest.head? == some ' ') = true
      · rw [wsSegmentsF_cons_run n c rest hg] at hmem
        rcases List.mem_cons.mp hmem with hseg | hmem'
        · subst hseg; cases hpl
        · exact ih _ seg hmem' hpl
      · have hg' : (c = ' ' && rest.head? == some ' ') = false := by simpa using hg
        rw [wsSegmentsF_cons_plain n c rest hg'] at hmem
        rcases List.mem_cons.mp hmem with hseg | hmem'
        · subst hseg; rfl
        · exact ih _ seg hmem' hpl

theorem wsSegmentsF_chars (fuel : Nat) :
    ∀ cs : List Char, ∀ seg ∈ wsSegmentsF fuel cs, ∀ ch ∈ seg.2, ch ∈ cs := by
  induction fuel with
  | zero => intro cs seg hmem; cases hmem
  | succ n ih =>
    intro cs seg hmem ch hch
    match cs with
    | [] => cases hmem
    | c :: rest =>
      by_cases hg : (c = ' ' && rest.head? == some ' ') = true
      · rw [wsSegmentsF_cons_run n c rest hg] at hmem
        rcases List.mem_cons.mp hmem with hseg | hmem'
        · subst hseg
          rcases List.mem_cons.mp hch with rfl | hch'
          · exact List.mem_cons_self _ _
          · exact List.mem_cons_of_mem _ ((List.takeWhile_sublist _).subset hch')
        · have := ih _ seg hmem' ch hch
          exact List.mem_cons_of_mem _ ((List.dropWhile_sublist _).subset this)
      · have hg' : (c = ' ' && rest.head? == some ' ') = false := by simpa using hg
        rw [wsSegmentsF_cons_plain n c rest hg'] at hmem
        rcases List.mem_cons.mp hmem with hseg | hmem'
        · subst hseg
          rcases List.mem_singleton.mp hch with rfl
          exact List.mem_cons_self _ _
        · exact List.mem_cons_of_mem _ (ih _ seg hmem' ch hch)

theorem wsNewContent_of_noDbl (cs : List Char) (h : hasDbl cs = false) :
    wsNewContent cs = cs := by
  suffices hgen : ∀ (fuel : Nat) (xs : List Char), xs.length ≤ fuel → hasDbl xs = false →
      renderSegs (wsSegmentsF fuel xs) = xs by
    exact hgen cs.length cs (Nat.le_refl _) h
  intro fuel
  induction fuel with
  | zero =>
    intro xs hl _
    have : xs = [] := List.eq_nil_of_length_eq_zero (Nat.le_zero.mp hl)
    subst this; rfl
  | succ n ih =>
    intro xs hl hdbl
    match xs with
    | [] => rfl
    | c :: rest =>
      have hg : (c = ' ' && rest.head? == some ' ') = false := by
        match rest with
        | [] => simp
        | r :: rest' =>
          have hnand : ¬(c = ' ' ∧ r = ' ') := by
            intro hcr
            rw [hasDbl] at hdbl
            simp [hcr.1, hcr.2] at hdbl
          by_cases hc : c = ' '
          · have hr : ¬(r = ' ') := fun hr => hnand ⟨hc, hr⟩
            simp [hc, hr]
          · simp [hc]
      have hrest : hasDbl rest = false := by
        match rest with
        | [] => rfl
        | r :: rest' =>
          rw [hasDbl] at hdbl
          exact (Bool.or_eq_false_iff.mp hdbl).2
      have hlen : rest.length ≤ n := by simpa using hl
      rw [wsSegmentsF_cons_plain n c rest hg]
      show (false, [c]).2 ++ renderSegs (wsSegmentsF n rest) = c :: rest
      rw [ih rest hlen hrest]
      rfl

theorem wsReplaceText_of_noDbl (s : String) (h : hasDbl s.data = false) :
    wsReplaceText s = none := by
  rw [wsReplaceText]
  simp [wsNewContent_of_noDbl s.data h]

theorem parseWsFragF_cons_open (n : Nat) (c : Char) (rest : List Char)
    (h : startsChars wsOpenChars (c :: rest) = true) :
    parseWsFragF (n + 1) (c :: rest) =
      Dom.elem "span" wsSpanAttrs
          (if wsInner (c :: rest) = [] then [] else [Dom.text ⟨wsInner (c :: rest)⟩]) ::
        parseWsFragF n (wsRest2 (c :: rest)) := by
  simp [parseWsFragF, h]

theorem parseWsFragF_cons_tag (n : Nat) (c : Char) (rest : List Char)
    (h : startsChars wsOpenChars (c :: rest) = false) (hc : c = '<') :
    parseWsFragF (n + 1) (c :: rest) =
      parseWsFragF n ((rest.dropWhile (· ≠ '>')).drop 1) := by
  subst hc
  simp [parseWsFragF, h]

theorem parseWsFragF_cons_raw (n : Nat) (c : Char) (rest : List Char)
    (h : startsChars wsOpenChars (c :: rest) = false) (hc : ¬(c = '<')) :
    parseWsFragF (n + 1) (c :: rest) =
      Dom.text ⟨decodeEntities ((c :: rest).takeWhile (· ≠ '<'))⟩ ::
        parseWsFragF n ((c :: rest).drop ((c :: rest).takeWhile (· ≠ '<')).length) := by
  simp [parseWsFragF, h, hc]

theorem wsRest2_length_lt (c : Char) (rest : List Char)
    (_h : startsChars wsOpenChars (c :: rest) = true) :
    (wsRest2 (c :: rest)).length < (c :: rest).length := by
  have hopen : 1 ≤ wsOpenChars.length := by decide
  have hafter : (wsAfter (c :: rest)).length = (c :: rest).length - wsOpenChars.length := by
    simp [wsAfter]
  have hlen : (c :: rest).length = rest.length + 1 := by simp
  have hafter2 : (wsAfter2 (c :: rest)).length ≤ (wsAfter (c :: rest)).length := by
    simp only [wsAfter2, List.length_drop]
    omega
  have hrest2 : (wsRest2 (c :: rest)).length ≤ (wsAfter2 (c :: rest)).length := by
    rw [wsRest2]
    by_cases hcl : startsChars wsCloseChars (wsAfter2 (c :: rest)) = true
    · simp only [hcl, if_true, List.length_drop]
      omega
    · simp [hcl]
  omega

theorem parseWsFragF_fuel (f1 : Nat) :
    ∀ (cs : List Char) (f2 : Nat), cs.length ≤ f1 → cs.length ≤ f2 →
      parseWsFragF f1 cs = parseWsFragF f2 cs := by
  induction f1 with
  | zero =>
    intro cs f2 h1 _
    have : cs = [] := List.eq_nil_of_length_eq_zero (Nat.le_zero.mp h1)
    subst this
    match f2 with
    | 0 => rfl
    | _ + 1 => rfl
  | succ n ih =>
    intro cs f2 h1 h2
    match cs with
    | [] =>
      match f2 with
      | 0 => rfl
      | _ + 1 => rfl
    | c :: rest =>
      match f2 with
      | 0 => exact absurd h2 (by simp)
      | m + 1 =>
        by_cases ho : startsChars wsOpenChars (c :: rest) = true
        · rw [parseWsFragF_cons_open n c rest ho, parseWsFragF_cons_open m c rest ho]
          have hlt := wsRest2_length_lt c rest ho
          have hb1 : (wsRest2 (c :: rest)).length ≤ n := by
            have := Nat.lt_of_lt_of_le hlt h1
            omega
          have hb2 : (wsRest2 (c :: rest)).length ≤ m := by
            have := Nat.lt_of_lt_of_le hlt h2
            omega
          rw [ih _ m hb1 hb2]
        · have ho' : startsChars wsOpenChars (c :: rest) = false := by simpa using ho
          by_cases hc : c = '<'
          · rw [parseWsFragF_cons_tag n c rest ho' hc, parseWsFragF_cons_tag m c rest ho' hc]
            have hlen : ((rest.dropWhile (· ≠ '>')).drop 1).length ≤ rest.length := by
              have hA : ((rest.dropWhile (· ≠ '>')).drop 1).length ≤
                  (rest.dropWhile (· ≠ '>')).length := by
                simp only [List.length_drop]
                omega
              have hB : (rest.dropWhile (· ≠ '>')).length ≤ rest.length :=
                (List.dropWhile_sublist _).length_le
              omega
            have hcs : rest.length + 1 ≤ n + 1 := by simpa using h1
            have hcs2 : rest.length + 1 ≤ m + 1 := by simpa using h2
            exact ih _ m (by omega) (by omega)
          · rw [parseWsFragF_cons_raw n c rest ho' hc, parseWsFragF_cons_raw m c rest ho' hc]
            have htake : ((c :: rest).takeWhile (· ≠ '<')).length ≥ 1 := by
              have : (c :: rest).takeWhile (· ≠ '<') = c :: rest.takeWhile (· ≠ '<') := by
                simp [List.takeWhile_cons, hc]
              rw [this]
              simp
            have hlen : ((c :: rest).drop ((c :: rest).takeWhile (· ≠ '<')).length).length ≤
                rest.length := by
              simp only [List.length_drop, List.length_cons]
              omega
            have hcs : rest.length + 1 ≤ n + 1 := by simpa using h1
            have hcs2 : rest.length + 1 ≤ m + 1 := by simpa using h2
            rw [ih _ m (by omega) (by omega)]

theorem startsChars_append_self (p : List Char) : ∀ x, startsChars p (p ++ x) = true := by
  induction p with
  | nil => intro x; rfl
  | cons a as ih =>
    intro x
    show (a == a && startsChars as (as ++ x)) = true
    simp [ih x]

theorem takeWhile_all_append (p : Char → Bool) (xs ys : List Char)
    (h : ∀ a ∈ xs, p a = true) :
    (xs ++ ys).takeWhile p = xs ++ ys.takeWhile p := by
  induction xs with
  | nil => rfl
  | cons a as ih =>
    have ha : p a = true := h a (List.mem_cons_self _ _)
    simp only [List.cons_append, List.takeWhile_cons, ha, if_true]
    rw [ih fun b hb => h b (List.mem_cons_of_mem _ hb)]

/-- The opening span tag starts with `<` and continues with `wsOpenTail`. -/
def wsOpenTail : List Char :=
  ("span class=\"diff-whitespace\" style=\"white-space: pre-wrap;\">").data

theorem wsOpen_cons : wsOpenChars = '<' :: wsOpenTail := by decide

theorem parseWsFragF_run (f : Nat) (r rest : List Char) (hne : r ≠ [])
    (hsp : ∀ ch ∈ r, ch = ' ') :
    parseWsFragF (f + 1) (wsOpenChars ++ (r ++ (wsCloseChars ++ rest))) =
      Dom.elem "span" wsSpanAttrs [Dom.text ⟨r⟩] :: parseWsFragF f rest := by
  have hfull : wsOpenChars ++ (r ++ (wsCloseChars ++ rest)) =
      '<' :: (wsOpenTail ++ (r ++ (wsCloseChars ++ rest))) := by
    rw [wsOpen_cons]
    rfl
  have hstarts : startsChars wsOpenChars
      ('<' :: (wsOpenTail ++ (r ++ (wsCloseChars ++ rest)))) = true := by
    rw [← hfull]
    exact startsChars_append_self _ _
  have hafter : wsAfter ('<' :: (wsOpenTail ++ (r ++ (wsCloseChars ++ rest)))) =
      r ++ (wsCloseChars ++ rest) := by
    rw [wsAfter, ← hfull]
    exact List.drop_left _ _
  have hrne : ∀ a ∈ r, (decide (a ≠ '<')) = true := by
    intro a ha
    have := hsp a ha
    subst this
    decide
  have hinner : wsInner ('<' :: (wsOpenTail ++ (r ++ (wsCloseChars ++ rest)))) = r := by
    rw [wsInner, hafter]
    have hclose : wsCloseChars ++ rest = '<' :: ("/span>".data ++ rest) := rfl
    rw [hclose, takeWhile_all_append _ _ _ hrne]
    simp [List.takeWhile_cons]
  have hafter2 : wsAfter2 ('<' :: (wsOpenTail ++ (r ++ (wsCloseChars ++ rest)))) =
      wsCloseChars ++ rest := by
    rw [wsAfter2, hafter, hinner]
    exact List.drop_left _ _
  have hrest2 : wsRest2 ('<' :: (wsOpenTail ++ (r ++ (wsCloseChars ++ rest)))) = rest := by
    rw [wsRest2, hafter2, startsChars_append_self wsCloseChars rest]
    simp [List.drop_left]
  rw [hfull, parseWsFragF_cons_open f _ _ hstarts, hinner, hrest2]
  simp [hne]
theorem decodeEntities_cons (c : Char) (xs : List Char) (hc : c ≠ '&') :
    decodeEntities (c :: xs) = c :: decodeEntities xs := by
  rw [decodeEntities.eq_def]
  split <;> simp_all

theorem string_empty_append (s : String) : "" ++ s = s := by
  apply String.ext
  simp [String.data_append]

theorem parseWs_textOf_cons (c : Char) (cs : List Char) (hlt : c ≠ '<') (ham : c ≠ '&') :
    domTextL (parseWsFrag (c :: cs)) = String.mk [c] ++ domTextL (parseWsFrag cs) := by
  have hstarts : startsChars wsOpenChars (c :: cs) = false := by
    rw [wsOpen_cons]
    show ('<' == c && startsChars wsOpenTail cs) = false
    simp [Ne.symm hlt]
  have htw : (c :: cs).takeWhile (· ≠ '<') = c :: cs.takeWhile (· ≠ '<') := by
    simp [List.takeWhile_cons, hlt]
  have hfrag : parseWsFrag (c :: cs) =
      Dom.text ⟨c :: decodeEntities (cs.takeWhile (· ≠ '<'))⟩ ::
        parseWsFragF cs.length (cs.drop (cs.takeWhile (· ≠ '<')).length) := by
    rw [parseWsFrag, List.length_cons,
      parseWsFragF_cons_raw cs.length c cs hstarts hlt, htw,
      decodeEntities_cons c _ ham]
    simp
  have hrhs : domTextL (parseWsFrag cs) =
      String.mk (decodeEntities (cs.takeWhile (· ≠ '<'))) ++
        domTextL (parseWsFragF cs.length (cs.drop (cs.takeWhile (· ≠ '<')).length)) := by
    match cs with
    | [] => rfl
    | d :: ds =>
      by_cases hd : d = '<'
      · have htk : (d :: ds).takeWhile (· ≠ '<') = [] := by
          simp [List.takeWhile_cons, hd]
        rw [htk]
        show domTextL (parseWsFrag (d :: ds)) =
          "" ++ domTextL (parseWsFragF (d :: ds).length ((d :: ds).drop 0))
        rw [string_empty_append, List.drop_zero]
        rfl
      · have hstarts2 : startsChars wsOpenChars (d :: ds) = false := by
          rw [wsOpen_cons]
          show ('<' == d && startsChars wsOpenTail ds) = false
          simp [Ne.symm hd]
        have hfuel : parseWsFragF (d :: ds).length
            ((d :: ds).drop ((d :: ds).takeWhile (· ≠ '<')).length) =
            parseWsFragF ds.length
              ((d :: ds).drop ((d :: ds).takeWhile (· ≠ '<')).length) := by
          apply parseWsFragF_fuel
          · simp only [List.length_drop, List.length_cons]
            omega
          · have h1 : 1 ≤ ((d :: ds).takeWhile (· ≠ '<')).length := by
              have : (d :: ds).takeWhile (· ≠ '<') = d :: ds.takeWhile (· ≠ '<') := by
                simp [List.takeWhile_cons, hd]
              rw [this]
              simp
            simp only [List.length_drop, List.length_cons]
            omega
        rw [show parseWsFrag (d :: ds) = parseWsFragF (ds.length + 1) (d :: ds) from rfl,
          parseWsFragF_cons_raw ds.length d ds hstarts2 hd]
        show String.mk (decodeEntities ((d :: ds).takeWhile (· ≠ '<'))) ++
            domTextL (parseWsFragF ds.length
              ((d :: ds).drop ((d :: ds).takeWhile (· ≠ '<')).length)) = _
        rw [hfuel]
  rw [hfrag]
  show String.mk (c :: decodeEntities (cs.takeWhile (· ≠ '<'))) ++
      domTextL (parseWsFragF cs.length (cs.drop (cs.takeWhile (· ≠ '<')).length)) = _
  rw [hrhs]
  have hsplit : String.mk (c :: decodeEntities (cs.takeWhile (· ≠ '<'))) =
      String.mk [c] ++ String.mk (decodeEntities (cs.takeWhile (· ≠ '<'))) := by
    rw [← string_mk_append]
    rfl
  rw [hsplit, String.append_assoc]

theorem parseWs_textOf_append (p : List Char) :
    ∀ rest : List Char, (∀ ch ∈ p, ch ≠ '<' ∧ ch ≠ '&') →
      domTextL (parseWsFrag (p ++ rest)) = String.mk p ++ domTextL (parseWsFrag rest) := by
  induction p with
  | nil =>
    intro rest _
    show domTextL (parseWsFrag rest) = "" ++ domTextL (parseWsFrag rest)
    rw [string_empty_append]
  | cons c cs ih =>
    intro rest hp
    have hc := hp c (List.mem_cons_self _ _)
    show domTextL (parseWsFrag (c :: (cs ++ rest))) = _
    rw [parseWs_textOf_cons c _ hc.1 hc.2,
      ih rest fun ch hch => hp ch (List.mem_cons_of_mem _ hch)]
    have : String.mk (c :: cs) = String.mk [c] ++ String.mk cs := by
      rw [← string_mk_append]
      rfl
    rw [this, String.append_assoc]
theorem renderSegs_cons (seg : Bool × List Char) (segs : List (Bool × List Char)) :
    renderSegs (seg :: segs) =
      (if seg.1 then wsOpenChars ++ seg.2 ++ wsCloseChars else seg.2) ++ renderSegs segs :=
  rfl

theorem renderSegs_parse_textOf (segs : List (Bool × List Char))
    (hval : ∀ seg ∈ segs,
      (seg.1 = true → seg.2 ≠ [] ∧ ∀ ch ∈ seg.2, ch = ' ') ∧
      (seg.1 = false → ∀ ch ∈ seg.2, ch ≠ '<' ∧ ch ≠ '&')) :
    domTextL (parseWsFrag (renderSegs segs)) = String.mk (segContents segs) := by
  induction segs with
  | nil => rfl
  | cons seg rest ih =>
    have hseg := hval seg (List.mem_cons_self _ _)
    have hrest := fun s hs => hval s (List.mem_cons_of_mem _ hs)
    rcases seg with ⟨b, content⟩
    match b with
    | true =>
      have hcontent := hseg.1 rfl
      rw [renderSegs_cons]
      show domTextL (parseWsFrag
        (wsOpenChars ++ content ++ wsCloseChars ++ renderSegs rest)) = _
      have hassoc : wsOpenChars ++ content ++ wsCloseChars ++ renderSegs rest =
          wsOpenChars ++ (content ++ (wsCloseChars ++ renderSegs rest)) := by
        simp [List.append_assoc]
      rw [hassoc]
      set full := wsOpenChars ++ (content ++ (wsCloseChars ++ renderSegs rest)) with hfull
      have hlenfull : full.length = wsOpenChars.length + content.length +
          wsCloseChars.length + (renderSegs rest).length := by
        simp [hfull]
        omega
      have hpos : 1 ≤ full.length := by
        have : 1 ≤ wsOpenChars.length := by decide
        omega
      have hfuel0 : full.length = (full.length - 1) + 1 := by omega
      rw [show parseWsFrag full = parseWsFragF full.length full from rfl, hfuel0]
      have hrunfuel : parseWsFragF (full.length - 1 + 1) full =
          Dom.elem "span" wsSpanAttrs [Dom.text ⟨content⟩] ::
            parseWsFragF (full.length - 1) (renderSegs rest) := by
        have := parseWsFragF_run (full.length - 1) content (renderSegs rest)
          hcontent.1 hcontent.2
        rw [hfull]
        exact this
      rw [hrunfuel]
      have hnorm : parseWsFragF (full.length - 1) (renderSegs rest) =
          parseWsFrag (renderSegs rest) := by
        apply parseWsFragF_fuel
        · have : 1 ≤ wsOpenChars.length := by decide
          omega
        · exact Nat.le_refl _
      rw [hnorm]
      show (String.mk content ++ "") ++ domTextL (parseWsFrag (renderSegs rest)) = _
      rw [ih hrest]
      apply String.ext
      show (content ++ [] ++ segContents rest) = content ++ segContents rest
      simp
    | false =>
      have hcontent := hseg.2 rfl
      rw [renderSegs_cons]
      show domTextL (parseWsFrag (content ++ renderSegs rest)) = _
      rw [parseWs_textOf_append content (renderSegs rest) hcontent, ih hrest]
      apply String.ext
      simp [String.data_append, segContents_cons]

/-- No space character sits on the boundary between two adjacent segments of
the whitespace segmentation (so every maximal space run lies inside one
segment). -/
def segBoundaryOk (s1 s2 : Bool × List Char) : Prop :=
  ¬(s1.2.getLast? = some ' ' ∧ s2.2.head? = some ' ')

theorem head?_dropWhile_not (p : Char → Bool) :
    ∀ (l : List Char) (x : Char), (l.dropWhile p).head? = some x → p x = false := by
  intro l
  induction l with
  | nil => intro x h; cases h
  | cons a as ih =>
    intro x h
    by_cases ha : p a = true
    · rw [List.dropWhile_cons, if_pos ha] at h
      exact ih x h
    · have ha' : p a = false := by simpa using ha
      rw [List.dropWhile_cons, if_neg (by simp [ha'])] at h
      have : a = x := by simpa using h
      subst this
      exact ha'

theorem wsSegmentsF_head_char (fuel : Nat) (cs : List Char)
    (seg : Bool × List Char) (segs' : List (Bool × List Char))
    (h : wsSegmentsF fuel cs = seg :: segs') : seg.2.head? = cs.head? := by
  match fuel, cs with
  | 0, _ => cases h
  | _ + 1, [] => cases h
  | n + 1, c :: rest =>
    by_cases hg : (c = ' ' && rest.head? == some ' ') = true
    · rw [wsSegmentsF_cons_run n c rest hg] at h
      have := (List.cons.injEq _ _ _ _).mp h
      rw [← this.1]
      rfl
    · have hg' : (c = ' ' && rest.head? == some ' ') = false := by simpa using hg
      rw [wsSegmentsF_cons_plain n c rest hg'] at h
      have := (List.cons.injEq _ _ _ _).mp h
      rw [← this.1]
      rfl

theorem wsSegmentsF_chain (fuel : Nat) :
    ∀ cs : List Char, List.Chain' segBoundaryOk (wsSegmentsF fuel cs) := by
  induction fuel with
  | zero => intro cs; exact List.chain'_nil
  | succ n ih =>
    intro cs
    match cs with
    | [] => exact List.chain'_nil
    | c :: rest =>
      by_cases hg : (c = ' ' && rest.head? == some ' ') = true
      · rw [wsSegmentsF_cons_run n c rest hg]
        apply List.chain'_cons'.mpr
        refine ⟨?_, ih _⟩
        intro y hy
        match hsegs : wsSegmentsF n (rest.dropWhile (· = ' ')), hy with
        | seg :: segs', hy =>
          have hhead : seg.2.head? = (rest.dropWhile (· = ' ')).head? :=
            wsSegmentsF_head_char n _ seg segs' hsegs
          have hy' : y = seg := by
            have := hy
            simp only [List.head?_cons, Option.mem_def, Option.some.injEq] at this
            exact this.symm
          subst hy'
          intro ⟨_, habs⟩
          rw [hhead] at habs
          have := head?_dropWhile_not _ _ _ habs
          simp at this
      · have hg' : (c = ' ' && rest.head? == some ' ') = false := by simpa using hg
        rw [wsSegmentsF_cons_plain n c rest hg']
        apply List.chain'_cons'.mpr
        refine ⟨?_, ih _⟩
        intro y hy
        match hsegs : wsSegmentsF n rest, hy with
        | seg :: segs', hy =>
          have hhead : seg.2.head? = rest.head? :=
            wsSegmentsF_head_char n _ seg segs' hsegs
          have hy' : y = seg := by
            have := hy
            simp only [List.head?_cons, Option.mem_def, Option.some.injEq] at this
            exact this.symm
          subst hy'
          intro ⟨hlast, hhd⟩
          have hc : c = ' ' := by
            have : ([c] : List Char).getLast? = some c := rfl
            rw [this] at hlast
            simpa using hlast
          rw [hhead] at hhd
          rw [hc] at hg'
          simp [hhd] at hg'

/-- C9 (amended): the whitespace-run highlighter wraps exactly the runs of
two or more consecutive literal spaces: its segmentation reconstructs the
text (nothing inserted or deleted at the text level), every wrapped segment
is a space run of length ≥ 2, every unwrapped segment is a single character,
and no space run straddles a segment boundary — so every ≥2-space run lands
inside one wrapped marker.  The rendered text content of the replacement is
preserved exactly *provided* the text node contains no markup-significant
character (`<` or `&`); `c9_counterexample` shows the `innerHTML` round trip
alters text containing such characters, which forces this restriction on the
original claim. -/
theorem c9_whitespace_marker (s : String) :
    segContents (wsSegments s.data) = s.data ∧
    (∀ seg ∈ wsSegments s.data, seg.1 = true →
      (∀ ch ∈ seg.2, ch = ' ') ∧ 2 ≤ seg.2.length) ∧
    (∀ seg ∈ wsSegments s.data, seg.1 = false → seg.2.length = 1) ∧
    List.Chain' segBoundaryOk (wsSegments s.data) ∧
    ((∀ ch ∈ s.data, ch ≠ '<' ∧ ch ≠ '&') →
      domTextL (parseWsFrag (wsNewContent s.data)) = s) := by
  refine ⟨wsSegmentsF_contents _ _ (Nat.le_refl _),
    wsSegmentsF_runs _ _, wsSegmentsF_plains _ _, wsSegmentsF_chain _ _, ?_⟩
  intro hs
  rw [wsNewContent]
  have hval : ∀ seg ∈ wsSegments s.data,
      (seg.1 = true → seg.2 ≠ [] ∧ ∀ ch ∈ seg.2, ch = ' ') ∧
      (seg.1 = false → ∀ ch ∈ seg.2, ch ≠ '<' ∧ ch ≠ '&') := by
    intro seg hseg
    constructor
    · intro hrun
      have hr := wsSegmentsF_runs _ _ seg hseg hrun
      refine ⟨?_, hr.1⟩
      intro hnil
      rw [hnil] at hr
      have := hr.2
      simp at this
    · intro _ ch hch
      exact hs ch (wsSegmentsF_chars _ _ seg hseg ch hch)
  rw [renderSegs_parse_textOf _ hval]
  have hc := wsSegmentsF_contents s.data.length s.data (Nat.le_refl _)
  rw [show wsSegments s.data = wsSegmentsF s.data.length s.data from rfl, hc]

/-- Witness for C9 at the concrete text `"a  b"` (one run of two spaces and
no markup-significant characters): segmentation reconstructs the text, and
the replacement's rendered text content equals the original. -/
theorem c9_witness :
    segContents (wsSegments "a  b".data) = "a  b".data ∧
    domTextL (parseWsFrag (wsNewContent "a  b".data)) = "a  b" :=
  ⟨(c9_whitespace_marker "a  b").1,
    (c9_whitespace_marker "a  b").2.2.2.2 (by decide)⟩

/-- Counterexample to C9 as stated: the text node `"  &amp;"` (two spaces
followed by the five literal characters `&amp;`) contains a ≥2-space run, so
`markWhitespaceChanges` rebuilds it through `innerHTML`; the re-parse decodes
the literal `&amp;` to `&`, so the rendered text content becomes `"  &"` —
characters of the text were deleted, contradicting "for every input it
preserves the container's rendered text content exactly". -/
theorem c9_counterexample :
    domTextL (markWsList [Dom.text "  &amp;"]) = "  &" ∧
    domTextL [Dom.text "  &amp;"] = "  &amp;" ∧
    ("  &" : String) ≠ "  &amp;" :=
  ⟨rfl, rfl, by decide⟩

/-! ## Node Aligner (`deepCompareAndMarkChanges`, lines 70-305)

`createNodeMap` walks element children, building one record per element with
a path (child indices among *element* children), a structural signature, the
full text content, the depth, and the parent path (the bare `old`/`new`
prefix of top-level nodes is represented by the empty path, which is never a
map key — exactly as the `"old"`/`"new"` strings are never map keys in the
source, so `hasHighlightedAncestor`'s walk stops there in both).  The three
passes are folds over the records sorted by ascending depth (JavaScript's
stable sort with comparator `a.depth - b.depth`; `sortByDepth` is the stable
insertion sort, which agrees with every stable sort).  The side-effecting
parts (`markTextDifferences`, `markNodeAsChanged`) are recorded in the
resulting `AlignSt` (`highlights`, `removed`, `added`) and applied to the
trees by `markStructuralApply` below, mirroring the mutations the source
performs through direct element references during the passes. -/

structure NodeRec where
  path : List Nat
  signature : String
  textContent : String
  depth : Nat
  parent : List Nat
deriving Repr, DecidableEq

/-- Separator-joined string (`Array.prototype.join`). -/
def joinSep (sep : String) : List String → String
  | [] => ""
  | [x] => x
  | x :: xs => x ++ sep ++ joinSep sep xs

/-- Character-level `String.toLowerCase`. -/
def strToLower (s : String) : String := ⟨s.data.map Char.toLower⟩

/-- Character-level `String.prototype.startsWith`. -/
def strStartsWith (s pre : String) : Bool := startsChars pre.data s.data

/-- The structural signature (lines 95-109): lowercased tag name, the
non-`data-lexical` attributes rendered `name="value"` and joined by spaces
(prefixed by one space when non-empty), then `:` and the number of *all*
child nodes. -/
def mkSignature (tag : String) (attrs : List (String × String))
    (children : List Dom) : String :=
  let sigAttrs := joinSep " "
    ((attrs.filter fun a => !strStartsWith a.1 "data-lexical").map
      fun a => a.1 ++ "=\"" ++ a.2 ++ "\"")
  strToLower tag ++ (if sigAttrs ≠ "" then " " ++ sigAttrs else "") ++ ":" ++
    toString children.length

mutual

def cnmNode (n : Dom) (path : List Nat) (depth : Nat) (parentPath : List Nat) :
    List NodeRec :=
  match n with
  | .text _ => []
  | .elem tag attrs children =>
    ⟨path, mkSignature tag attrs children, domText (.elem tag attrs children),
      depth, parentPath⟩ :: cnmChildren children 0 path (depth + 1)

/-- Recurse over a sibling list: `i` is the running index among *element*
children, `childDepth` the depth assigned to these children. -/
def cnmChildren (cs : List Dom) (i : Nat) (path : List Nat) (childDepth : Nat) :
    List NodeRec :=
  match cs with
  | [] => []
  | c :: rest =>
    if isElemNode c then
      cnmNode c (path ++ [i]) childDepth path ++ cnmChildren rest (i + 1) path childDepth
    else cnmChildren rest i path childDepth

end

/-- The flat node map of a container (insertion order = pre-order). -/
def createNodeMap (container : List Dom) : List NodeRec :=
  cnmChildren container 0 [] 0

/-- The ancestor walk of `hasHighlightedAncestor` (lines 148-169), with fuel
bounding the loop (on maps produced by `createNodeMap` the parent chain
strictly shortens, so the fuel `m.length + 1` is never exhausted). -/
def hlWalk (m : List NodeRec) (flags : List (List Nat)) : Nat → List Nat → Bool
  | 0, _ => false
  | fuel + 1, par =>
    match m.find? (fun r => r.path == par) with
    | none => false
    | some r => if flags.contains par then true else hlWalk m flags fuel r.parent

def hasHLAncestor (m : List NodeRec) (flags : List (List Nat)) (path : List Nat) :
    Bool :=
  match m.find? (fun r => r.path == path) with
  | none => false
  | some r => hlWalk m flags (m.length + 1) r.parent

/-- Stable insertion sort by ascending depth (equal to the source's stable
`sort((a, b) => a[1].depth - b[1].depth)`). -/
def insByDepth (r : NodeRec) : List NodeRec → List NodeRec
  | [] => [r]
  | x :: xs => if r.depth ≤ x.depth then r :: x :: xs else x :: insByDepth r xs

def sortByDepth : List NodeRec → List NodeRec
  | [] => []
  | r :: rest => insByDepth r (sortByDepth rest)

/-- Alignment state: the mapping, the processed sets, the highlighted flags,
and the recorded mutations (text-difference highlight invocations and
whole-node removed/added markings). -/
structure AlignSt where
  mapping : List (List Nat × List Nat)
  processedOld : List (List Nat)
  processedNew : List (List Nat)
  flagsOld : List (List Nat)
  flagsNew : List (List Nat)
  highlights : List (List Nat × List Nat × List DiffOp)
  removed : List (List Nat)
  added : List (List Nat)
deriving Repr, DecidableEq

def initSt : AlignSt := ⟨[], [], [], [], [], [], [], []⟩

instance {ε α : Type} [DecidableEq ε] [DecidableEq α] : DecidableEq (Except ε α) :=
  fun a b =>
  match a, b with
  | .ok x, .ok y =>
    if h : x = y then .isTrue (by rw [h]) else .isFalse (by intro hx; cases hx; exact h rfl)
  | .error x, .error y =>
    if h : x = y then .isTrue (by rw [h]) else .isFalse (by intro hx; cases hx; exact h rfl)
  | .ok _, .error _ => .isFalse (by intro hx; cases hx)
  | .error _, .ok _ => .isFalse (by intro hx; cases hx)

/-- `hasSignificantChanges` (lines 249-251): some changed fragment has
non-whitespace content. -/
def hasSignificantChanges (diffs : List DiffOp) : Bool :=
  diffs.any fun d => d.1 != 0 && (jsTrim d.2).length > 0

/-- One step of pass 2.1 (lines 193-219): skip when an ancestor is decided
(recording the node as processed), otherwise pair with the first new-side
candidate of equal signature and equal text content. -/
def exactStep (oldM newM sortedNew : List NodeRec) (st : AlignSt) (r : NodeRec) :
    AlignSt :=
  if hasHLAncestor oldM st.flagsOld r.path then
    { st with processedOld := r.path :: st.processedOld }
  else
    match sortedNew.find? (fun q =>
      !(hasHLAncestor newM st.flagsNew q.path || st.processedNew.contains q.path) &&
      r.signature == q.signature && r.textContent == q.textContent) with
    | none => st
    | some q =>
        { st with
        mapping := st.mapping ++ [(r.path, q.path)]
        processedOld := r.path :: st.processedOld
        processedNew := q.path :: st.processedNew }

def exactPassGo (oldM newM sortedNew : List NodeRec) :
    List NodeRec → AlignSt → AlignSt
  | [], st => st
  | r :: rest, st =>
    exactPassGo oldM newM sortedNew rest (exactStep oldM newM sortedNew st r)

/-- The body of pass 2.2 after a signature match (lines 240-258): record the
pair, mark both processed, compute the word diff of the two text contents
(which may throw), and when some changed fragment has non-whitespace content
invoke the highlight applicator on both nodes and set both decision flags. -/
def structPairStep (dm : String → String → Except String (List DiffOp))
    (cleanup : List DiffOp → List DiffOp) (st : AlignSt) (r q : NodeRec) :
    Except String AlignSt :=
  let st1 := { st with
    mapping := st.mapping ++ [(r.path, q.path)]
    processedOld := r.path :: st.processedOld
    processedNew := q.path :: st.processedNew }
  match performDiffE dm cleanup r.textContent q.textContent with
  | .error e => .error e
  | .ok diffs =>
    if hasSignificantChanges diffs then
      .ok { st1 with
        highlights := st1.highlights ++ [(r.path, q.path, diffs)]
        flagsOld := r.path :: st1.flagsOld
        flagsNew := q.path :: st1.flagsNew }
    else .ok st1

def structStep (oldM newM sortedNew : List NodeRec)
    (dm : String → String → Except String (List DiffOp))
    (cleanup : List DiffOp → List DiffOp) (st : AlignSt) (r : NodeRec) :
    Except String AlignSt :=
  if st.processedOld.contains r.path || hasHLAncestor oldM st.flagsOld r.path then
    .ok st
  else
    match sortedNew.find? (fun q =>
      !(st.processedNew.contains q.path || hasHLAncestor newM st.flagsNew q.path) &&
      r.signature == q.signature) with
    | none => .ok st
    | some q => structPairStep dm cleanup st r q

def structPassGo (oldM newM sortedNew : List NodeRec)
    (dm : String → String → Except String (List DiffOp))
    (cleanup : List DiffOp → List DiffOp) :
    List NodeRec → AlignSt → Except String AlignSt
  | [], st => .ok st
  | r :: rest, st =>
    match structStep oldM newM sortedNew dm cleanup st r with
    | .error e => .error e
    | .ok st' => structPassGo oldM newM sortedNew dm cleanup rest st'

/-- Whether `q` begins with `p` (segment-wise). -/
def pathStarts : List Nat → List Nat → Bool
  | _, [] => true
  | [], _ :: _ => false
  | a :: as, b :: bs => a == b && pathStarts as bs

/-- `q` is strictly below `p`: the source's
`childPath.startsWith(oldPath + "/")` on slash-joined numeric paths. -/
def strictUnder (p q : List Nat) : Bool :=
  pathStarts q p && decide (p.length < q.length)

/-- One step of pass 2.3 on the old side (lines 265-283): an undecided node
is marked removed in place, flagged, and all its path-descendants are added
to the processed set. -/
def residualOldStep (oldM : List NodeRec) (st : AlignSt) (r : NodeRec) : AlignSt :=
  if st.processedOld.contains r.path || hasHLAncestor oldM st.flagsOld r.path then st
  else
    { st with
      removed := st.removed ++ [r.path]
      flagsOld := r.path :: st.flagsOld
      processedOld := st.processedOld ++
        ((oldM.filter fun c => strictUnder r.path c.path).map (·.path)) }

def residualOldGo (oldM : List NodeRec) : List NodeRec → AlignSt → AlignSt
  | [], st => st
  | r :: rest, st => residualOldGo oldM rest (residualOldStep oldM st r)

/-- Pass 2.3 on the new side (lines 286-304), symmetric. -/
def residualNewStep (newM : List NodeRec) (st : AlignSt) (r : NodeRec) : AlignSt :=
  if st.processedNew.contains r.path || hasHLAncestor newM st.flagsNew r.path then st
  else
    { st with
      added := st.added ++ [r.path]
      flagsNew := r.path :: st.flagsNew
      processedNew := st.processedNew ++
        ((newM.filter fun c => strictUnder r.path c.path).map (·.path)) }

def residualNewGo (newM : List NodeRec) : List NodeRec → AlignSt → AlignSt
  | [], st => st
  | r :: rest, st => residualNewGo newM rest (residualNewStep newM st r)

/-- Embedding of `deepCompareAndMarkChanges` (lines 70-305): build both node
maps, sort by depth, run the exact pass, the structural pass (whose word
diffs may throw — an exception aborts the whole comparison), and the two
residual passes. -/
def deepCompareE (dm : String → String → Except String (List DiffOp))
    (cleanup : List DiffOp → List DiffOp) (oldC newC : List Dom) :
    Except String AlignSt :=
  match structPassGo (createNodeMap oldC) (createNodeMap newC)
      (sortByDepth (createNodeMap newC)) dm cleanup
      (sortByDepth (createNodeMap oldC))
      (exactPassGo (createNodeMap oldC) (createNodeMap newC)
        (sortByDepth (createNodeMap newC)) (sortByDepth (createNodeMap oldC)) initSt) with
  | .error e => .error e
  | .ok st2 => .ok (residualNewGo (createNodeMap newC) (sortByDepth (createNodeMap newC))
      (residualOldGo (createNodeMap oldC) (sortByDepth (createNodeMap oldC)) st2))

/-- The concrete state produced by `structPairStep` in `c8_witness`. -/
def structPairStepResult : AlignSt :=
  { initSt with
    mapping := [([0], [0])]
    processedOld := [[0]]
    processedNew := [[0]]
    highlights := [([0], [0], [((-1 : Int), "a"), ((1 : Int), "b")])]
    flagsOld := [[0]]
    flagsNew := [[0]] }

theorem structPairStep_eq_sig
    (dm : String → String → Except String (List DiffOp))
    (cleanup : List DiffOp → List DiffOp) (st : AlignSt) (r q : NodeRec)
    (diffs : List DiffOp)
    (hdm : performDiffE dm cleanup r.textContent q.textContent = .ok diffs)
    (hsig : hasSignificantChanges diffs = true) :
    structPairStep dm cleanup st r q = .ok { st with
      mapping := st.mapping ++ [(r.path, q.path)]
      processedOld := r.path :: st.processedOld
      processedNew := q.path :: st.processedNew
      highlights := st.highlights ++ [(r.path, q.path, diffs)]
      flagsOld := r.path :: st.flagsOld
      flagsNew := q.path :: st.flagsNew } := by
  simp only [structPairStep, hdm, hsig, if_true]

theorem structPairStep_eq_nosig
    (dm : String → String → Except String (List DiffOp))
    (cleanup : List DiffOp → List DiffOp) (st : AlignSt) (r q : NodeRec)
    (diffs : List DiffOp)
    (hdm : performDiffE dm cleanup r.textContent q.textContent = .ok diffs)
    (hsig : hasSignificantChanges diffs = false) :
    structPairStep dm cleanup st r q = .ok { st with
      mapping := st.mapping ++ [(r.path, q.path)]
      processedOld := r.path :: st.processedOld
      processedNew := q.path :: st.processedNew } := by
  simp only [structPairStep, hdm, hsig, Bool.false_eq_true, if_false]

/-! ## Claim C8: the structural pass's significant-change test -/

/-- C8: in the structural (signature-only) pass, when a paired old/new
node's word-level diff succeeds, the pair is recorded and both nodes marked
processed; if at least one changed-operation fragment has non-whitespace
content (the `hasSignificantChanges` test) the highlight applicator
invocation on both nodes is recorded and both decision flags are set;
otherwise no highlight is emitted and neither decision flag changes, so the
pair's descendants remain eligible for independent classification (the
skip tests of the later steps consult exactly these flags). -/
theorem c8_struct_pair_decision
    (dm : String → String → Except String (List DiffOp))
    (cleanup : List DiffOp → List DiffOp) (st : AlignSt) (r q : NodeRec)
    (diffs : List DiffOp) (st' : AlignSt)
    (hdm : performDiffE dm cleanup r.textContent q.textContent = .ok diffs)
    (hstep : structPairStep dm cleanup st r q = .ok st') :
    (r.path, q.path) ∈ st'.mapping ∧
    r.path ∈ st'.processedOld ∧ q.path ∈ st'.processedNew ∧
    (hasSignificantChanges diffs = true →
      (r.path, q.path, diffs) ∈ st'.highlights ∧
      r.path ∈ st'.flagsOld ∧ q.path ∈ st'.flagsNew) ∧
    (hasSignificantChanges diffs = false →
      st'.highlights = st.highlights ∧ st'.flagsOld = st.flagsOld ∧
      st'.flagsNew = st.flagsNew) := by
  by_cases hsig : hasSignificantChanges diffs = true
  · rw [structPairStep_eq_sig dm cleanup st r q diffs hdm hsig] at hstep
    have hst : st' = { st with
        mapping := st.mapping ++ [(r.path, q.path)]
        processedOld := r.path :: st.processedOld
        processedNew := q.path :: st.processedNew
        highlights := st.highlights ++ [(r.path, q.path, diffs)]
        flagsOld := r.path :: st.flagsOld
        flagsNew := q.path :: st.flagsNew } :=
      ((Except.ok.injEq _ _).mp hstep).symm
    subst hst
    refine ⟨by simp, by simp, by simp, fun _ => ⟨by simp, by simp, by simp⟩, ?_⟩
    intro hfalse
    rw [hsig] at hfalse
    cases hfalse
  · have hsig' : hasSignificantChanges diffs = false := by simpa using hsig
    rw [structPairStep_eq_nosig dm cleanup st r q diffs hdm hsig'] at hstep
    have hst : st' = { st with
        mapping := st.mapping ++ [(r.path, q.path)]
        processedOld := r.path :: st.processedOld
        processedNew := q.path :: st.processedNew } :=
      ((Except.ok.injEq _ _).mp hstep).symm
    subst hst
    refine ⟨by simp, by simp, by simp, ?_, fun _ => ⟨rfl, rfl, rfl⟩⟩
    intro htrue
    rw [hsig'] at htrue
    cases htrue

/-- Witness for C8 at a concrete pair: equal signatures `p:1`, texts `"a"`
vs `"b"`, whose word diff has a significant change. -/
theorem c8_witness :
    (([0] : List Nat), ([0] : List Nat)) ∈ structPairStepResult.mapping ∧
    ([0] : List Nat) ∈ structPairStepResult.processedOld ∧
    ([0] : List Nat) ∈ structPairStepResult.processedNew ∧
    (hasSignificantChanges [((-1 : Int), "a"), ((1 : Int), "b")] = true →
      (([0] : List Nat), ([0] : List Nat), [((-1 : Int), "a"), ((1 : Int), "b")]) ∈
        structPairStepResult.highlights ∧
      ([0] : List Nat) ∈ structPairStepResult.flagsOld ∧
      ([0] : List Nat) ∈ structPairStepResult.flagsNew) ∧
    (hasSignificantChanges [((-1 : Int), "a"), ((1 : Int), "b")] = false →
      structPairStepResult.highlights = initSt.highlights ∧
      structPairStepResult.flagsOld = initSt.flagsOld ∧
      structPairStepResult.flagsNew = initSt.flagsNew) :=
  c8_struct_pair_decision dmModelE cleanupId initSt
    ⟨[0], "p:1", "a", 0, []⟩ ⟨[0], "p:1", "b", 0, []⟩
    [((-1 : Int), "a"), ((1 : Int), "b")] structPairStepResult rfl (by decide)

/-! ## Claim C6: ancestor precedence of whole-node markings -/

/-- No path in the list is a strict descendant of another path in the list
(the claim's "no descendant independently receives its own class"). -/
def NoNested (l : List (List Nat)) : Prop :=
  ∀ p ∈ l, ∀ q ∈ l, strictUnder p q = false

theorem strictUnder_lt (p q : List Nat) (h : strictUnder p q = true) :
    p.length < q.length :=
  of_decide_eq_true ((Bool.and_eq_true _ _).mp h).2

theorem strictUnder_self (p : List Nat) : strictUnder p p = false := by
  simp [strictUnder]

theorem insByDepth_mem (r : NodeRec) (l : List NodeRec) (x : NodeRec) :
    x ∈ insByDepth r l ↔ x = r ∨ x ∈ l := by
  induction l with
  | nil => simp [insByDepth]
  | cons a as ih =>
    rw [insByDepth]
    by_cases h : r.depth ≤ a.depth
    · simp [h]
    · simp only [h, if_false, List.mem_cons, ih]
      tauto

theorem sortByDepth_mem (l : List NodeRec) (x : NodeRec) :
    x ∈ sortByDepth l ↔ x ∈ l := by
  induction l with
  | nil => simp [sortByDepth]
  | cons a as ih =>
    rw [sortByDepth, insByDepth_mem]
    simp [ih]

theorem insByDepth_pairwise (r : NodeRec) (l : List NodeRec)
    (h : List.Pairwise (fun a b => a.depth ≤ b.depth) l) :
    List.Pairwise (fun a b => a.depth ≤ b.depth) (insByDepth r l) := by
  induction l with
  | nil => simp [insByDepth]
  | cons a as ih =>
    rw [insByDepth]
    by_cases hle : r.depth ≤ a.depth
    · rw [if_pos hle]
      apply List.pairwise_cons.mpr
      refine ⟨?_, h⟩
      intro x hx
      rcases List.mem_cons.mp hx with rfl | hx'
      · exact hle
      · exact Nat.le_trans hle ((List.pairwise_cons.mp h).1 x hx')
    · rw [if_neg hle]
      have hr : a.depth ≤ r.depth := Nat.le_of_not_le hle
      apply List.pairwise_cons.mpr
      constructor
      · intro x hx
        rcases (insByDepth_mem r as x).mp hx with rfl | hx'
        · exact hr
        · exact (List.pairwise_cons.mp h).1 x hx'
      · exact ih (List.pairwise_cons.mp h).2

theorem sortByDepth_pairwise (l : List NodeRec) :
    List.Pairwise (fun a b => a.depth ≤ b.depth) (sortByDepth l) := by
  induction l with
  | nil => exact List.Pairwise.nil
  | cons a as ih => exact insByDepth_pairwise a (sortByDepth as) ih

mutual

theorem cnmNode_depth (n : Dom) : ∀ (path : List Nat) (depth : Nat)
    (par : List Nat), path.length = depth + 1 →
    ∀ rec ∈ cnmNode n path depth par, rec.path.length = rec.depth + 1 :=
  match n with
  | .text _ => by intro path depth par _ rec hrec; cases hrec
  | .elem tag attrs children => by
    intro path depth par hlen rec hrec
    rw [cnmNode] at hrec
    rcases List.mem_cons.mp hrec with rfl | hrec'
    · exact hlen
    · exact cnmChildren_depth children 0 path (depth + 1) (by simpa using hlen) rec hrec'

theorem cnmChildren_depth (cs : List Dom) : ∀ (i : Nat) (path : List Nat)
    (childDepth : Nat), path.length = childDepth →
    ∀ rec ∈ cnmChildren cs i path childDepth, rec.path.length = rec.depth + 1 :=
  match cs with
  | [] => by intro i path childDepth _ rec hrec; cases hrec
  | c :: rest => by
    intro i path childDepth hlen rec hrec
    rw [cnmChildren] at hrec
    by_cases hel : isElemNode c = true
    · rw [if_pos hel] at hrec
      rcases List.mem_append.mp hrec with hrec' | hrec'
      · exact cnmNode_depth c (path ++ [i]) childDepth path (by simp [hlen]) rec hrec'
      · exact cnmChildren_depth rest (i + 1) path childDepth hlen rec hrec'
    · rw [if_neg hel] at hrec
      exact cnmChildren_depth rest i path childDepth hlen rec hrec

end

theorem createNodeMap_depth (f : List Dom) :
    ∀ rec ∈ createNodeMap f, rec.path.length = rec.depth + 1 :=
  cnmChildren_depth f 0 [] 0 rfl
theorem residualOldGo_noNested (oldM : List NodeRec)
    (hdepth : ∀ c ∈ oldM, c.path.length = c.depth + 1) :
    ∀ (L : List NodeRec) (st : AlignSt),
      (∀ x ∈ L, x ∈ oldM) →
      List.Pairwise (fun a b => a.depth ≤ b.depth) L →
      NoNested st.removed →
      (∀ p ∈ st.removed, ∀ c ∈ oldM, strictUnder p c.path = true →
        c.path ∈ st.processedOld) →
      (∀ p ∈ st.removed, ∀ x ∈ L, p.length ≤ x.depth + 1) →
      NoNested (residualOldGo oldM L st).removed := by
  intro L
  induction L with
  | nil => intro st _ _ h1 _ _; exact h1
  | cons r rest ih =>
    intro st hmem hpw h1 h2 h3
    have hrM : r ∈ oldM := hmem r (List.mem_cons_self _ _)
    rw [residualOldGo]
    by_cases hskip : (st.processedOld.contains r.path ||
        hasHLAncestor oldM st.flagsOld r.path) = true
    · have hstep : residualOldStep oldM st r = st := by
        rw [residualOldStep, if_pos hskip]
      rw [hstep]
      exact ih st (fun x hx => hmem x (List.mem_cons_of_mem _ hx))
        (List.pairwise_cons.mp hpw).2 h1 h2
        (fun p hp x hx => h3 p hp x (List.mem_cons_of_mem _ hx))
    · have hskip' : (st.processedOld.contains r.path ||
          hasHLAncestor oldM st.flagsOld r.path) = false := by simpa using hskip
      have hnotproc : r.path ∉ st.processedOld := by
        have := (Bool.or_eq_false_iff.mp hskip').1
        simpa using this
      have hstep : residualOldStep oldM st r = { st with
          removed := st.removed ++ [r.path]
          flagsOld := r.path :: st.flagsOld
          processedOld := st.processedOld ++
            ((oldM.filter fun c => strictUnder r.path c.path).map (·.path)) } := by
        rw [residualOldStep, if_neg (by rw [hskip']; simp)]
      rw [hstep]
      have hrlen : r.path.length = r.depth + 1 := hdepth r hrM
      apply ih
      · exact fun x hx => hmem x (List.mem_cons_of_mem _ hx)
      · exact (List.pairwise_cons.mp hpw).2
      · -- NoNested (st.removed ++ [r.path])
        intro p hp q hq
        rcases List.mem_append.mp hp with hpo | hpn
        · rcases List.mem_append.mp hq with hqo | hqn
          · exact h1 p hpo q hqo
          · have hq' : q = r.path := List.mem_singleton.mp hqn
            subst hq'
            by_contra hcon
            have htrue : strictUnder p r.path = true := by simpa using hcon
            exact hnotproc (h2 p hpo r hrM htrue)
        · have hp' : p = r.path := List.mem_singleton.mp hpn
          subst hp'
          rcases List.mem_append.mp hq with hqo | hqn
          · by_contra hcon
            have htrue : strictUnder r.path q = true := by simpa using hcon
            have hlt := strictUnder_lt r.path q htrue
            have hle := h3 q hqo r (List.mem_cons_self _ _)
            rw [← hrlen] at hle
            omega
          · have hq' : q = r.path := List.mem_singleton.mp hqn
            subst hq'
            exact strictUnder_self _
      · -- descendants of every removed path are processed
        intro p hp c hc hunder
        rcases List.mem_append.mp hp with hpo | hpn
        · exact List.mem_append_left _ (h2 p hpo c hc hunder)
        · have hp' : p = r.path := List.mem_singleton.mp hpn
          subst hp'
          apply List.mem_append_right
          exact List.mem_map.mpr ⟨c, List.mem_filter.mpr ⟨hc, hunder⟩, rfl⟩
      · -- length bound against the remaining nodes
        intro p hp x hx
        rcases List.mem_append.mp hp with hpo | hpn
        · exact h3 p hpo x (List.mem_cons_of_mem _ hx)
        · have hp' : p = r.path := List.mem_singleton.mp hpn
          subst hp'
          rw [hrlen]
          have := (List.pairwise_cons.mp hpw).1 x hx
          omega

theorem residualNewGo_noNested (newM : List NodeRec)
    (hdepth : ∀ c ∈ newM, c.path.length = c.depth + 1) :
    ∀ (L : List NodeRec) (st : AlignSt),
      (∀ x ∈ L, x ∈ newM) →
      List.Pairwise (fun a b => a.depth ≤ b.depth) L →
      NoNested st.added →
      (∀ p ∈ st.added, ∀ c ∈ newM, strictUnder p c.path = true →
        c.path ∈ st.processedNew) →
      (∀ p ∈ st.added, ∀ x ∈ L, p.length ≤ x.depth + 1) →
      NoNested (residualNewGo newM L st).added := by
  intro L
  induction L with
  | nil => intro st _ _ h1 _ _; exact h1
  | cons r rest ih =>
    intro st hmem hpw h1 h2 h3
    have hrM : r ∈ newM := hmem r (List.mem_cons_self _ _)
    rw [residualNewGo]
    by_cases hskip : (st.processedNew.contains r.path ||
        hasHLAncestor newM st.flagsNew r.path) = true
    · have hstep : residualNewStep newM st r = st := by
        rw [residualNewStep, if_pos hskip]
      rw [hstep]
      exact ih st (fun x hx => hmem x (List.mem_cons_of_mem _ hx))
        (List.pairwise_cons.mp hpw).2 h1 h2
        (fun p hp x hx => h3 p hp x (List.mem_cons_of_mem _ hx))
    · have hskip' : (st.processedNew.contains r.path ||
          hasHLAncestor newM st.flagsNew r.path) = false := by simpa using hskip
      have hnotproc : r.path ∉ st.processedNew := by
        have := (Bool.or_eq_false_iff.mp hskip').1
        simpa using this
      have hstep : residualNewStep newM st r = { st with
          added := st.added ++ [r.path]
          flagsNew := r.path :: st.flagsNew
          processedNew := st.processedNew ++
            ((newM.filter fun c => strictUnder r.path c.path).map (·.path)) } := by
        rw [residualNewStep, if_neg (by rw [hskip']; simp)]
      rw [hstep]
      have hrlen : r.path.length = r.depth + 1 := hdepth r hrM
      apply ih
      · exact fun x hx => hmem x (List.mem_cons_of_mem _ hx)
      · exact (List.pairwise_cons.mp hpw).2
      · intro p hp q hq
        rcases List.mem_append.mp hp with hpo | hpn
        · rcases List.mem_append.mp hq with hqo | hqn
          · exact h1 p hpo q hqo
          · have hq' : q = r.path := List.mem_singleton.mp hqn
            subst hq'
            by_contra hcon
            have htrue : strictUnder p r.path = true := by simpa using hcon
            exact hnotproc (h2 p hpo r hrM htrue)
        · have hp' : p = r.path := List.mem_singleton.mp hpn
          subst hp'
          rcases List.mem_append.mp hq with hqo | hqn
          · by_contra hcon
            have htrue : strictUnder r.path q = true := by simpa using hcon
            have hlt := strictUnder_lt r.path q htrue
            have hle := h3 q hqo r (List.mem_cons_self _ _)
            rw [← hrlen] at hle
            omega
          · have hq' : q = r.path := List.mem_singleton.mp hqn
            subst hq'
            exact strictUnder_self _
      · intro p hp c hc hunder
        rcases List.mem_append.mp hp with hpo | hpn
        · exact List.mem_append_left _ (h2 p hpo c hc hunder)
        · have hp' : p = r.path := List.mem_singleton.mp hpn
          subst hp'
          apply List.mem_append_right
          exact List.mem_map.mpr ⟨c, List.mem_filter.mpr ⟨hc, hunder⟩, rfl⟩
      · intro p hp x hx
        rcases List.mem_append.mp hp with hpo | hpn
        · exact h3 p hpo x (List.mem_cons_of_mem _ hx)
        · have hp' : p = r.path := List.mem_singleton.mp hpn
          subst hp'
          rw [hrlen]
          have := (List.pairwise_cons.mp hpw).1 x hx
          omega
theorem exactStep_fields (oldM newM sortedNew : List NodeRec) (st : AlignSt)
    (r : NodeRec) :
    (exactStep oldM newM sortedNew st r).removed = st.removed ∧
    (exactStep oldM newM sortedNew st r).added = st.added := by
  rw [exactStep]
  split
  · exact ⟨rfl, rfl⟩
  · split
    · exact ⟨rfl, rfl⟩
    · exact ⟨rfl, rfl⟩

theorem exactPassGo_fields (oldM newM sortedNew : List NodeRec) :
    ∀ (L : List NodeRec) (st : AlignSt),
      (exactPassGo oldM newM sortedNew L st).removed = st.removed ∧
      (exactPassGo oldM newM sortedNew L st).added = st.added := by
  intro L
  induction L with
  | nil => intro st; exact ⟨rfl, rfl⟩
  | cons r rest ih =>
    intro st
    rw [exactPassGo]
    have hstep := exactStep_fields oldM newM sortedNew st r
    have hrec := ih (exactStep oldM newM sortedNew st r)
    exact ⟨hrec.1.trans hstep.1, hrec.2.trans hstep.2⟩

theorem structPairStep_fields (dm : String → String → Except String (List DiffOp))
    (cleanup : List DiffOp → List DiffOp) (st : AlignSt) (r q : NodeRec)
    (st' : AlignSt) (h : structPairStep dm cleanup st r q = .ok st') :
    st'.removed = st.removed ∧ st'.added = st.added := by
  rw [structPairStep] at h
  split at h
  · cases h
  · split at h
    · have := ((Except.ok.injEq _ _).mp h).symm
      subst this
      exact ⟨rfl, rfl⟩
    · have := ((Except.ok.injEq _ _).mp h).symm
      subst this
      exact ⟨rfl, rfl⟩

theorem structStep_fields (oldM newM sortedNew : List NodeRec)
    (dm : String → String → Except String (List DiffOp))
    (cleanup : List DiffOp → List DiffOp) (st : AlignSt) (r : NodeRec)
    (st' : AlignSt) (h : structStep oldM newM sortedNew dm cleanup st r = .ok st') :
    st'.removed = st.removed ∧ st'.added = st.added := by
  rw [structStep] at h
  split at h
  · have := ((Except.ok.injEq _ _).mp h).symm
    subst this
    exact ⟨rfl, rfl⟩
  · split at h
    · have := ((Except.ok.injEq _ _).mp h).symm
      subst this
      exact ⟨rfl, rfl⟩
    · exact structPairStep_fields dm cleanup st r _ st' h

theorem structPassGo_fields (oldM newM sortedNew : List NodeRec)
    (dm : String → String → Except String (List DiffOp))
    (cleanup : List DiffOp → List DiffOp) :
    ∀ (L : List NodeRec) (st st' : AlignSt),
      structPassGo oldM newM sortedNew dm cleanup L st = .ok st' →
      st'.removed = st.removed ∧ st'.added = st.added := by
  intro L
  induction L with
  | nil =>
    intro st st' h
    have : st = st' := (Except.ok.injEq _ _).mp h
    subst this
    exact ⟨rfl, rfl⟩
  | cons r rest ih =>
    intro st st' h
    rw [structPassGo] at h
    split at h
    · cases h
    · rename_i st1 hstep
      have h1 := structStep_fields oldM newM sortedNew dm cleanup st r st1 hstep
      have h2 := ih st1 st' h
      exact ⟨h2.1.trans h1.1, h2.2.trans h1.2⟩

theorem residualOldStep_added (oldM : List NodeRec) (st : AlignSt) (r : NodeRec) :
    (residualOldStep oldM st r).added = st.added := by
  rw [residualOldStep]
  split
  · rfl
  · rfl

theorem residualOldGo_added (oldM : List NodeRec) :
    ∀ (L : List NodeRec) (st : AlignSt),
      (residualOldGo oldM L st).added = st.added := by
  intro L
  induction L with
  | nil => intro st; rfl
  | cons r rest ih =>
    intro st
    rw [residualOldGo]
    exact (ih _).trans (residualOldStep_added oldM st r)

theorem residualNewStep_removed (newM : List NodeRec) (st : AlignSt) (r : NodeRec) :
    (residualNewStep newM st r).removed = st.removed := by
  rw [residualNewStep]
  split
  · rfl
  · rfl

theorem residualNewGo_removed (newM : List NodeRec) :
    ∀ (L : List NodeRec) (st : AlignSt),
      (residualNewGo newM L st).removed = st.removed := by
  intro L
  induction L with
  | nil => intro st; rfl
  | cons r rest ih =>
    intro st
    rw [residualNewGo]
    exact (ih _).trans (residualNewStep_removed newM st r)

/-- C6: after one full alignment pass, the whole-node markings are an
antichain on each side: if an element node is classified removed (class
`diff-node-removed`) then no descendant of it is independently classified,
and likewise for added (`diff-node-added`).  The decisive mechanism is the
residual pass: marking a node enters all its path-descendants into the
processed set, and the depth-ascending iteration order makes it impossible
for a descendant to be marked before its ancestor. -/
theorem c6_ancestor_precedence (dm : String → String → Except String (List DiffOp))
    (cleanup : List DiffOp → List DiffOp) (oldC newC : List Dom) (st : AlignSt)
    (h : deepCompareE dm cleanup oldC newC = .ok st) :
    NoNested st.removed ∧ NoNested st.added := by
  rcases hsp : structPassGo (createNodeMap oldC) (createNodeMap newC)
      (sortByDepth (createNodeMap newC)) dm cleanup
      (sortByDepth (createNodeMap oldC))
      (exactPassGo (createNodeMap oldC) (createNodeMap newC)
        (sortByDepth (createNodeMap newC)) (sortByDepth (createNodeMap oldC)) initSt)
      with e | st2
  · rw [deepCompareE, hsp] at h
    cases h
  · rw [deepCompareE, hsp] at h
    have hst : st = residualNewGo (createNodeMap newC) (sortByDepth (createNodeMap newC))
        (residualOldGo (createNodeMap oldC) (sortByDepth (createNodeMap oldC)) st2) :=
      ((Except.ok.injEq _ _).mp h).symm
    subst hst
    have hst2removed : st2.removed = [] := by
      have h1 := (structPassGo_fields _ _ _ dm cleanup _ _ _ hsp).1
      have h2 := (exactPassGo_fields (createNodeMap oldC) (createNodeMap newC)
        (sortByDepth (createNodeMap newC)) (sortByDepth (createNodeMap oldC)) initSt).1
      rw [h1, h2]
      rfl
    have hst2added : st2.added = [] := by
      have h1 := (structPassGo_fields _ _ _ dm cleanup _ _ _ hsp).2
      have h2 := (exactPassGo_fields (createNodeMap oldC) (createNodeMap newC)
        (sortByDepth (createNodeMap newC)) (sortByDepth (createNodeMap oldC)) initSt).2
      rw [h1, h2]
      rfl
    constructor
    · rw [residualNewGo_removed]
      apply residualOldGo_noNested (createNodeMap oldC) (createNodeMap_depth oldC)
      · intro x hx
        exact (sortByDepth_mem _ _).mp hx
      · exact sortByDepth_pairwise _
      · rw [hst2removed]
        intro p hp
        cases hp
      · rw [hst2removed]
        intro p hp
        cases hp
      · rw [hst2removed]
        intro p hp
        cases hp
    · have hadded : (residualOldGo (createNodeMap oldC)
          (sortByDepth (createNodeMap oldC)) st2).added = st2.added :=
        residualOldGo_added _ _ _
      apply residualNewGo_noNested (createNodeMap newC) (createNodeMap_depth newC)
      · intro x hx
        exact (sortByDepth_mem _ _).mp hx
      · exact sortByDepth_pairwise _
      · rw [hadded, hst2added]
        intro p hp
        cases hp
      · rw [hadded, hst2added]
        intro p hp
        cases hp
      · rw [hadded, hst2added]
        intro p hp
        cases hp

/-- The concrete alignment state of `c6_witness`: old `[<p>a</p>]` against
an empty new container, so the single old node is marked removed. -/
def c6DemoState : AlignSt :=
  { initSt with flagsOld := [[0]], removed := [[0]] }

/-- Witness for C6 at a concrete input: the old container `[<p>a</p>]`
against an empty new container. -/
theorem c6_witness :
    deepCompareE dmModelE cleanupId [Dom.elem "p" [] [Dom.text "a"]] [] =
      .ok c6DemoState ∧
    NoNested c6DemoState.removed ∧ NoNested c6DemoState.added :=
  ⟨by decide,
    c6_ancestor_precedence dmModelE cleanupId [Dom.elem "p" [] [Dom.text "a"]] []
      c6DemoState (by decide)⟩

/-! ## Highlight application on trees

The remaining machinery of `markTextDifferences` (lines 396-441),
`applyWordHighlighting` (lines 504-647), `markNodeAsChanged` (lines 650-669),
`applyTextNodeChanges` (lines 864-952) and `highlightChanges`
(lines 955-1028).  Text spans carry the path (index among *all* child nodes
at each level), standing in for the direct node references the source holds;
`applyWordHighlighting`'s replacements are applied in one rebuild over the
original tree (`applySplicesList`) because each text node is replaced at most
once via direct references in the source, while `applyTextNodeChanges`
re-resolves paths against the progressively mutated clone, which
`atncChangeStep` mirrors by threading the mutated tree. -/

structure TextSpanRec where
  path : List Nat
  text : String
  startPos : Nat
  endPos : Nat
deriving Repr, DecidableEq

mutual

def extractSpansNode (n : Dom) (path : List Nat) (pos : Nat) :
    List TextSpanRec × Nat :=
  match n with
  | .text s => ([⟨path, s, pos, pos + s.length⟩], pos + s.length)
  | .elem _ _ cs => extractSpansList cs path 0 pos

def extractSpansList (cs : List Dom) (path : List Nat) (i : Nat) (pos : Nat) :
    List TextSpanRec × Nat :=
  match cs with
  | [] => ([], pos)
  | c :: rest =>
    let r1 := extractSpansNode c (path ++ [i]) pos
    let r2 := extractSpansList rest path (i + 1) r1.2
    (r1.1 ++ r2.1, r2.2)

end

/-- `findNodeByPath` (lines 58-67): walk `childNodes[index]` along the path. -/
def findNodeByPathL (f : List Dom) : List Nat → Option Dom
  | [] => none
  | [i] => f[i]?
  | i :: j :: rest =>
    match f[i]? with
    | some (Dom.elem _ _ cs) => findNodeByPathL cs (j :: rest)
    | _ => none

/-- Replace the node at `path` by the given node list (the
`insertBefore`/`removeChild` splice of `applyTextNodeChanges`). -/
def spliceAtPath : List Nat → List Dom → List Dom → List Dom
  | [], f, _ => f
  | [i], f, repl => if i < f.length then f.take i ++ repl ++ f.drop (i + 1) else f
  | i :: j :: rest, f, repl =>
    match f[i]? with
    | some (Dom.elem t a cs) =>
      f.take i ++ [Dom.elem t a (spliceAtPath (j :: rest) cs repl)] ++ f.drop (i + 1)
    | _ => f

def lookupSplice (spl : List (List Nat × List Dom)) (path : List Nat) :
    Option (List Dom) :=
  (spl.find? fun e => e.1 == path).map Prod.snd

mutual

def applySplicesNode (n : Dom) (path : List Nat)
    (spl : List (List Nat × List Dom)) : List Dom :=
  match n with
  | .text s =>
    match lookupSplice spl path with
    | some parts => parts
    | none => [.text s]
  | .elem t a cs => [.elem t a (applySplicesList cs path 0 spl)]

def applySplicesList (cs : List Dom) (path : List Nat) (i : Nat)
    (spl : List (List Nat × List Dom)) : List Dom :=
  match cs with
  | [] => []
  | c :: rest =>
    applySplicesNode c (path ++ [i]) spl ++ applySplicesList rest path (i + 1) spl

end

/-- Whitespace-run split of a class attribute value into `classList` tokens. -/
def splitWsTokensF : Nat → List Char → List String
  | 0, _ => []
  | _ + 1, [] => []
  | fuel + 1, c :: rest =>
    if isJsSpace c then splitWsTokensF fuel (rest.dropWhile isJsSpace)
    else
      (⟨c :: rest.takeWhile (fun x => !isJsSpace x)⟩ : String) ::
        splitWsTokensF fuel (rest.dropWhile (fun x => !isJsSpace x))

def classTokens (v : String) : List String := splitWsTokensF v.data.length v.data

def childrenOf : Dom → List Dom
  | .text _ => []
  | .elem _ _ cs => cs

/-- `preserveParentAttributes` (lines 597-610): the parent's inline style
string and its `classList` joined by spaces (both empty for a non-element
parent). -/
def attrsView : Dom → String × String
  | .text _ => ("", "")
  | .elem _ attrs _ =>
    ((getAttr attrs "style").getD "", joinSep " " (classTokens (classAttr attrs)))

/-- The parent of the text node at `tpath` inside element `el` (the element
itself for a direct child). -/
def parentAttrsOf (el : Dom) (tpath : List Nat) : Option (String × String) :=
  match tpath with
  | [] => none
  | [_] => some (attrsView el)
  | _ =>
    match findNodeByPathL (childrenOf el) tpath.dropLast with
    | some p => some (attrsView p)
    | none => none

/-- A grouped run of consecutive word segments of equal changed flag
(lines 517-550). -/
structure WordGroup where
  start : Nat
  stop : Nat
  isChanged : Bool
deriving Repr, DecidableEq

def groupWordsGo : List WordSeg → WordGroup → List WordGroup
  | [], cur => [cur]
  | w :: rest, cur =>
    if cur.isChanged = w.isChanged then groupWordsGo rest ⟨cur.start, w.stop, cur.isChanged⟩
    else cur :: groupWordsGo rest ⟨w.start, w.stop, w.isChanged⟩

def groupWords : List WordSeg → List WordGroup
  | [] => []
  | w :: rest => groupWordsGo rest ⟨w.start, w.stop, w.isChanged⟩

/-- One changed group of `applyWordHighlighting` (lines 553-646): collect the
affected unprocessed text nodes overlapping the group, then split each one
whose intersection is not whitespace-only, recording the replacement and
marking the node processed.  The accumulator is
`(processed node paths, splice decisions)`. -/
def awhGroupStep (el : Dom) (textNodes : List TextSpanRec) (changeType : String)
    (acc : List (List Nat) × List (List Nat × List Dom)) (group : WordGroup) :
    List (List Nat) × List (List Nat × List Dom) :=
  if !group.isChanged then acc
  else
    let affected := textNodes.filterMap fun t =>
      if acc.1.contains t.path then none
      else if t.endPos ≤ group.start || t.startPos ≥ group.stop then none
      else
        let ls := group.start - t.startPos
        let le := min t.text.length (group.stop - t.startPos)
        if ls < le then some (t, ls, le) else none
    affected.foldl (fun acc2 x =>
      match wordHighlightNodeStep x.1.text x.2.1 x.2.2 changeType
          (parentAttrsOf el x.1.path) with
      | some parts => (x.1.path :: acc2.1, acc2.2 ++ [(x.1.path, parts)])
      | none => acc2) acc

def applyWordHighlightingF (el : Dom) (textNodes : List TextSpanRec)
    (words : List WordSeg) (changeType : String) : List (List Nat × List Dom) :=
  ((groupWords words).foldl (awhGroupStep el textNodes changeType) ([], [])).2

/-- One side of `markTextDifferences` (lines 396-441): extract the text
spans, place the filtered diff's words, apply the word highlighting, and
rebuild the element with the resulting splices. -/
def applyMTDside (el : Dom) (filteredDiffs : List DiffOp) (changeType : String) :
    Dom :=
  match el with
  | .text s => .text s
  | .elem t a cs =>
    .elem t a (applySplicesList cs [] 0
      (applyWordHighlightingF (.elem t a cs) (extractSpansList cs [] 0 0).1
        (processContentWithWords (domText (.elem t a cs)) filteredDiffs) changeType))

/-- Update the `j`-th *element* child of a sibling list. -/
def updateElemAt (cs : List Dom) (j : Nat) (g : Dom → Dom) : List Dom :=
  match cs with
  | [] => []
  | c :: rest =>
    if isElemNode c then
      if j = 0 then g c :: rest else c :: updateElemAt rest (j - 1) g
    else c :: updateElemAt rest j g

/-- Update the element at an element-children path (the paths recorded by
`createNodeMap`). -/
def updateElemAtPath (f : List Dom) : List Nat → (Dom → Dom) → List Dom
  | [], _ => f
  | [j], g => updateElemAt f j g
  | j :: k :: rest, g =>
    updateElemAt f j fun c =>
      match c with
      | .elem t a cs => .elem t a (updateElemAtPath cs (k :: rest) g)
      | x => x

def setAttrVal (attrs : List (String × String)) (name val : String) :
    List (String × String) :=
  if (attrs.find? fun a => a.1 == name).isSome then
    attrs.map fun a => if a.1 == name then (a.1, val) else a
  else attrs ++ [(name, val)]

/-- `classList.add`: append the token to the class attribute unless already
present. -/
def classListAdd (attrs : List (String × String)) (cls : String) :
    List (String × String) :=
  let cur := classAttr attrs
  if (classTokens cur).contains cls then attrs
  else if cur = "" then setAttrVal attrs "class" cls
  else setAttrVal attrs "class" (cur ++ " " ++ cls)

/-- `markNodeAsChanged` (lines 650-669): add the `diff-node-...` class to the
element at the path, preserving its other classes and styles (the
`data-original-style` bookkeeping depends on the browser's computed styles —
an external collaborator — and is not modelled; no claim concerns it). -/
def addClassAtPathF (f : List Dom) (path : List Nat) (cls : String) : List Dom :=
  updateElemAtPath f path fun c =>
    match c with
    | .elem t a cs => .elem t (classListAdd a cls) cs
    | x => x

/-- Apply the recorded mutations of the alignment pass to the two trees, in
pass order: the text-difference highlights of pass 2.2, the whole-node marks
of pass 2.3, then the whitespace-run marking of `markStructuralChanges`
(lines 672-685). -/
def markStructuralApply (res : AlignSt) (oldC newC : List Dom) :
    List Dom × List Dom :=
  (markWhitespaceChangesF
    (res.removed.foldl (fun f p => addClassAtPathF f p "diff-node-removed")
      (res.highlights.foldl (fun f e =>
        updateElemAtPath f e.1 fun el =>
          applyMTDside el (e.2.2.filter fun d => d.1 != 1) "removed") oldC)),
   markWhitespaceChangesF
    (res.added.foldl (fun f p => addClassAtPathF f p "diff-node-added")
      (res.highlights.foldl (fun f e =>
        updateElemAtPath f e.2.1 fun el =>
          applyMTDside el (e.2.2.filter fun d => d.1 != -1) "added") newC)))

/-- Embedding of `markStructuralChanges` (lines 672-685): the deep
comparison followed by the application of its recorded mutations (the
`markListChanges` call is commented out in the source). -/
def markStructuralChangesE (dm : String → String → Except String (List DiffOp))
    (cleanup : List DiffOp → List DiffOp) (oldC newC : List Dom) :
    Except String (List Dom × List Dom) :=
  match deepCompareE dm cleanup oldC newC with
  | .error e => .error e
  | .ok res => .ok (markStructuralApply res oldC newC)

/-- An absolute-offset change range of `highlightChanges` (lines 971-1013). -/
structure ChangeRec where
  start : Nat
  stop : Nat
  text : String
  changeType : String
deriving Repr, DecidableEq

/-- The diff-to-ranges loop of `highlightChanges` (lines 985-1013): equal ops
advance both positions, deletes record an old-side range, inserts a new-side
range. -/
def computeChangesGo : List DiffOp → Nat → Nat → List ChangeRec × List ChangeRec
  | [], _, _ => ([], [])
  | (op, text) :: rest, oldPos, newPos =>
    if op = 0 then computeChangesGo rest (oldPos + text.length) (newPos + text.length)
    else if op = -1 then
      let r := computeChangesGo rest (oldPos + text.length) newPos
      (⟨oldPos, oldPos + text.length, text, "removed"⟩ :: r.1, r.2)
    else
      let r := computeChangesGo rest oldPos (newPos + text.length)
      (r.1, ⟨newPos, newPos + text.length, text, "added"⟩ :: r.2)

def computeChanges (diffs : List DiffOp) : List ChangeRec × List ChangeRec :=
  computeChangesGo diffs 0 0

/-- Stable descending sort by `start` (the source's stable
`sort((a, b) => b.start - a.start)`). -/
def insDesc (c : ChangeRec) : List ChangeRec → List ChangeRec
  | [] => [c]
  | x :: xs => if x.start ≤ c.start then c :: x :: xs else x :: insDesc c xs

def sortChangesDesc : List ChangeRec → List ChangeRec
  | [] => []
  | c :: rest => insDesc c (sortChangesDesc rest)

/-- One change of `applyTextNodeChanges` (lines 893-949): find the affected
text nodes from the static span list, re-resolve each path in the mutated
clone, split the text node and wrap the middle in a `diff-...` span. -/
def atncChangeStep (textNodes : List TextSpanRec) (f : List Dom)
    (change : ChangeRec) : List Dom :=
  (textNodes.filterMap fun node =>
    if node.endPos ≤ change.start || node.startPos ≥ change.stop then none
    else
      let ls := change.start - node.startPos
      let le := min node.text.length (change.stop - node.startPos)
      if ls < le then some (node, ls, le) else none).foldl
    (fun fcur x =>
      match findNodeByPathL fcur x.1.path with
      | some (Dom.text originalText) =>
        spliceAtPath x.1.path fcur
          ((if (textNodeChangeParts originalText x.2.1 x.2.2).1 ≠ "" then
              [Dom.text (textNodeChangeParts originalText x.2.1 x.2.2).1] else []) ++
            [Dom.elem "span" [("class", "diff-" ++ change.changeType)]
              [Dom.text (textNodeChangeParts originalText x.2.1 x.2.2).2.1]] ++
            (if (textNodeChangeParts originalText x.2.1 x.2.2).2.2 ≠ "" then
              [Dom.text (textNodeChangeParts originalText x.2.1 x.2.2).2.2] else []))
      | _ => fcur) f

/-- Embedding of `applyTextNodeChanges` (lines 864-952). -/
def applyTextNodeChangesF (container : List Dom) (textNodes : List TextSpanRec)
    (changes : List ChangeRec) : List Dom :=
  if changes = [] then container
  else (sortChangesDesc changes).foldl (atncChangeStep textNodes) container

/-- Embedding of `highlightChanges` (lines 955-1028): mark the structural
changes first (this is the Node Aligner invocation on the textual path),
extract the text nodes of the mutated trees, convert the diff to per-side
ranges, and splice the text markers. -/
def highlightChangesE (dm : String → String → Except String (List DiffOp))
    (cleanup : List DiffOp → List DiffOp) (oldC newC : List Dom)
    (diffs : List DiffOp) : Except String (List Dom × List Dom) :=
  match markStructuralChangesE dm cleanup oldC newC with
  | .error e => .error e
  | .ok r =>
    .ok (applyTextNodeChangesF r.1 (extractSpansList r.1 [] 0 0).1 (computeChanges diffs).1,
         applyTextNodeChangesF r.2 (extractSpansList r.2 [] 0 0).1 (computeChanges diffs).2)

/-- Embedding of `processSideBySideDiff` (lines 1051-1089), parameterised by
the browser's HTML parser (`innerHTML` assignment on the containers, an
external collaborator).  When the two text contents agree but the HTML
strings differ, only the structural marking runs (and a throw from its word
diffs escapes — the call is outside the `try`).  Otherwise the top-level word
diff runs outside the `try` (a throw escapes as `.error`), and the highlight
step runs inside the `try`: on a throw there, both containers are reset to
the original input HTML. -/
def processSideBySideDiffE (parse : String → List Dom)
    (dm : String → String → Except String (List DiffOp))
    (cleanup : List DiffOp → List DiffOp) (oldHtml newHtml : String) :
    Except String (List Dom × List Dom) :=
  if domTextL (parse oldHtml) = domTextL (parse newHtml) ∧ oldHtml ≠ newHtml then
    markStructuralChangesE dm cleanup (parse oldHtml) (parse newHtml)
  else
    match performDiffE dm cleanup (domTextL (parse oldHtml))
        (domTextL (parse newHtml)) with
    | .error e => .error e
    | .ok diffs =>
      match highlightChangesE dm cleanup (parse oldHtml) (parse newHtml) diffs with
      | .error _ => .ok (parse oldHtml, parse newHtml)
      | .ok r => .ok r

mutual

/-- Whether a class token appears on any element of the tree. -/
def containsClassNode (d : Dom) (cls : String) : Bool :=
  match d with
  | .text _ => false
  | .elem _ attrs cs =>
    (classTokens (classAttr attrs)).contains cls || containsClassL cs cls

def containsClassL (f : List Dom) (cls : String) : Bool :=
  match f with
  | [] => false
  | c :: rest => containsClassNode c cls || containsClassL rest cls

end

/-! ## Claim C2: the textual path and the Node Aligner -/

/-- C2 (amended): whenever the orchestrator takes the textual-diff path, it
computes the text diff and splices markers into the raw text-node layout —
but only after invoking the Node Aligner: `highlightChanges` first runs
`markStructuralChanges` (signature-based pairing and node-level
removed/added classification) on both containers, and the text markers are
spliced into the structurally marked trees. -/
theorem c2_textual_path_runs_aligner (parse : String → List Dom)
    (dm : String → String → Except String (List DiffOp))
    (cleanup : List DiffOp → List DiffOp) (oldHtml newHtml : String)
    (diffs : List DiffOp) (o1 n1 : List Dom)
    (htext : domTextL (parse oldHtml) ≠ domTextL (parse newHtml))
    (hdiff : performDiffE dm cleanup (domTextL (parse oldHtml))
      (domTextL (parse newHtml)) = .ok diffs)
    (hstruct : markStructuralChangesE dm cleanup (parse oldHtml) (parse newHtml) =
      .ok (o1, n1)) :
    processSideBySideDiffE parse dm cleanup oldHtml newHtml =
      .ok (applyTextNodeChangesF o1 (extractSpansList o1 [] 0 0).1
            (computeChanges diffs).1,
           applyTextNodeChangesF n1 (extractSpansList n1 [] 0 0).1
            (computeChanges diffs).2) := by
  have hcond : ¬(domTextL (parse oldHtml) = domTextL (parse newHtml) ∧
      oldHtml ≠ newHtml) := fun h => htext h.1
  simp only [processSideBySideDiffE, if_neg hcond, hdiff, highlightChangesE, hstruct]

/-- Demo trees for C2: old has a `div` with no counterpart, and the full
texts differ (`"ax"` vs `"a"`), so the textual path is taken. -/
def c2DemoOld : List Dom := [Dom.elem "p" [] [Dom.text "a"], Dom.elem "div" [] [Dom.text "x"]]

def c2DemoNew : List Dom := [Dom.elem "p" [] [Dom.text "a"]]

def c2DemoParse : String → List Dom := fun s => if s = "old" then c2DemoOld else c2DemoNew

/-- The structurally marked trees of the C2 demo (the aligner pairs the two
`p` nodes and marks the `div` removed). -/
def c2MarkedOld : List Dom :=
  [Dom.elem "p" [] [Dom.text "a"],
   Dom.elem "div" [("class", "diff-node-removed")] [Dom.text "x"]]

def c2MarkedNew : List Dom := [Dom.elem "p" [] [Dom.text "a"]]

/-- Witness for C2's amended theorem at the demo input. -/
theorem c2_witness :
    processSideBySideDiffE c2DemoParse dmModelE cleanupId "old" "new" =
      .ok (applyTextNodeChangesF c2MarkedOld (extractSpansList c2MarkedOld [] 0 0).1
            (computeChanges [((-1 : Int), "ax"), ((1 : Int), "a")]).1,
           applyTextNodeChangesF c2MarkedNew (extractSpansList c2MarkedNew [] 0 0).1
            (computeChanges [((-1 : Int), "ax"), ((1 : Int), "a")]).2) :=
  c2_textual_path_runs_aligner c2DemoParse dmModelE cleanupId "old" "new"
    [((-1 : Int), "ax"), ((1 : Int), "a")] c2MarkedOld c2MarkedNew
    (by decide) (by decide) (by decide)

/-- Counterexample to C2 as stated: on the textual path (the demo texts
`"ax"` and `"a"` differ) the pass's output old tree carries the node-level
class `diff-node-removed` on the unpaired `div` — node-level removed/added
classification did happen on that path. -/
theorem c2_counterexample :
    (domTextL (c2DemoParse "old") ≠ domTextL (c2DemoParse "new")) ∧
    (match processSideBySideDiffE c2DemoParse dmModelE cleanupId "old" "new" with
     | .ok r => containsClassL r.1 "diff-node-removed"
     | .error _ => false) = true :=
  ⟨by decide, by decide⟩

/-! ## Claim C4: exception handling of the side-by-side pass -/

/-- C4 (amended): a throw raised inside the highlight step
(`highlightChanges`, which includes the aligner's word diffs) is caught by
the pass's `try`/`catch`, which restores both containers to the original,
unmodified input HTML; but the top-level character-diff step (`performDiff`
at line 1070) runs *outside* the `try`, so a throw there propagates out of
the pass uncaught. -/
theorem c4_highlight_catch_restores (parse : String → List Dom)
    (dm : String → String → Except String (List DiffOp))
    (cleanup : List DiffOp → List DiffOp) (oldHtml newHtml : String)
    (diffs : List DiffOp) (e : String)
    (hpath : ¬(domTextL (parse oldHtml) = domTextL (parse newHtml) ∧
      oldHtml ≠ newHtml))
    (hdiff : performDiffE dm cleanup (domTextL (parse oldHtml))
      (domTextL (parse newHtml)) = .ok diffs)
    (hhl : highlightChangesE dm cleanup (parse oldHtml) (parse newHtml) diffs =
      .error e) :
    processSideBySideDiffE parse dm cleanup oldHtml newHtml =
      .ok (parse oldHtml, parse newHtml) := by
  simp only [processSideBySideDiffE, if_neg hpath, hdiff, hhl]

/-- Demo trees for C4: the containers' texts are `"ac"` and `"bc"`; the pair
`<p>a</p>` / `<p>b</p>` is signature-equal, so the structural pass diffs
`"a"` against `"b"`, where `c4DmBoom` throws. -/
def c4DemoOld : List Dom := [Dom.elem "p" [] [Dom.text "a"], Dom.elem "p" [] [Dom.text "c"]]

def c4DemoNew : List Dom := [Dom.elem "p" [] [Dom.text "b"], Dom.elem "p" [] [Dom.text "c"]]

def c4DemoParse : String → List Dom := fun s => if s = "o" then c4DemoOld else c4DemoNew

/-- A character-diff collaborator that throws exactly on the inner pair's
texts, so the top-level diff succeeds but the highlight step throws. -/
def c4DmBoom : String → String → Except String (List DiffOp) := fun a b =>
  if a = "a" && b = "b" then .error "boom" else dmModelE a b

/-- Witness for C4's amended theorem: the highlight step throws `"boom"`,
and the pass returns both containers restored to the parses of the original
input HTML. -/
theorem c4_witness :
    processSideBySideDiffE c4DemoParse c4DmBoom cleanupId "o" "n" =
      .ok (c4DemoParse "o", c4DemoParse "n") :=
  c4_highlight_catch_restores c4DemoParse c4DmBoom cleanupId "o" "n"
    [((-1 : Int), "ac"), ((1 : Int), "bc")] "boom"
    (by decide) (by decide) (by decide)

/-- A character-diff collaborator that always throws. -/
def dmThrow : String → String → Except String (List DiffOp) :=
  fun _ _ => .error "diff failed"

def c4SimpleParse : String → List Dom := fun s => [Dom.elem "p" [] [Dom.text s]]

/-- Counterexample to C4 as stated: when the underlying character-diff step
itself throws during a side-by-side pass (here on the top-level diff of
`"a"` vs `"b"`), the exception propagates out of the pass — the `performDiff`
call sits outside the `try`/`catch`, contradicting "the exception never
propagates out of the pass as an uncaught fault". -/
theorem c4_counterexample :
    processSideBySideDiffE c4SimpleParse dmThrow cleanupId "a" "b" =
      .error "diff failed" := by decide

/-! ## Claim C3: byte-identical inputs -/

theorem hlWalk_no_flags (m : List NodeRec) :
    ∀ (fuel : Nat) (par : List Nat), hlWalk m [] fuel par = false := by
  intro fuel
  induction fuel with
  | zero => intro par; rfl
  | succ n ih =>
    intro par
    rw [hlWalk]
    split
    · rfl
    · rw [if_neg (by simp)]
      exact ih _

theorem hasHLAncestor_no_flags (m : List NodeRec) (path : List Nat) :
    hasHLAncestor m [] path = false := by
  rw [hasHLAncestor]
  split
  · rfl
  · exact hlWalk_no_flags m (m.length + 1) _

mutual

/-- No text node of the tree contains two consecutive literal spaces. -/
def noDblNode : Dom → Bool
  | .text s => !hasDbl s.data
  | .elem _ _ cs => noDblList cs

def noDblList : List Dom → Bool
  | [] => true
  | c :: cs => noDblNode c && noDblList cs

end

mutual

theorem markWsNode_id : ∀ d : Dom, noDblNode d = true → markWsNode d = d
  | .text s => by
    intro h
    rw [noDblNode, Bool.not_eq_true'] at h
    rw [markWsNode, wsReplaceText_of_noDbl s h]
  | .elem t a cs => by
    intro h
    rw [noDblNode] at h
    rw [markWsNode, markWsList_id cs h]

theorem markWsList_id : ∀ f : List Dom, noDblList f = true → markWsList f = f
  | [] => by intro _; rfl
  | c :: cs => by
    intro h
    rw [noDblList, Bool.and_eq_true] at h
    rw [markWsList, markWsNode_id c h.1, markWsList_id cs h.2]

end

mutual

theorem mem_cnmNode_shape : ∀ (n : Dom) (p : List Nat) (d : Nat) (par : List Nat)
    (rec : NodeRec), rec ∈ cnmNode n p d par → ∃ t, rec.path = p ++ t
  | .text _, p, d, par, rec => by intro h; cases h
  | .elem tag attrs children, p, d, par, rec => by
    intro h
    rw [cnmNode] at h
    rcases List.mem_cons.mp h with rfl | h'
    · exact ⟨[], by simp⟩
    · rcases mem_cnmChildren_shape children 0 p (d + 1) rec h' with ⟨j, t, _, ht⟩
      exact ⟨j :: t, ht⟩

theorem mem_cnmChildren_shape : ∀ (cs : List Dom) (i : Nat) (p : List Nat) (d : Nat)
    (rec : NodeRec), rec ∈ cnmChildren cs i p d →
      ∃ j t, i ≤ j ∧ rec.path = p ++ j :: t
  | [], i, p, d, rec => by intro h; cases h
  | c :: rest, i, p, d, rec => by
    intro h
    rw [cnmChildren] at h
    by_cases hel : isElemNode c = true
    · rw [if_pos hel] at h
      rcases List.mem_append.mp h with h' | h'
      · rcases mem_cnmNode_shape c (p ++ [i]) d p rec h' with ⟨t, ht⟩
        exact ⟨i, t, Nat.le_refl _, by rw [ht]; simp⟩
      · rcases mem_cnmChildren_shape rest (i + 1) p d rec h' with ⟨j, t, hj, ht⟩
        exact ⟨j, t, by omega, ht⟩
    · rw [if_neg hel] at h
      exact mem_cnmChildren_shape rest i p d rec h

end

mutual

theorem cnmNode_paths_nodup : ∀ (n : Dom) (p : List Nat) (d : Nat) (par : List Nat),
    ((cnmNode n p d par).map (·.path)).Nodup
  | .text _, p, d, par => by rw [cnmNode]; exact List.nodup_nil
  | .elem tag attrs children, p, d, par => by
    rw [cnmNode]
    rw [List.map_cons]
    apply List.nodup_cons.mpr
    constructor
    · intro hmem
      rcases List.mem_map.mp hmem with ⟨rec, hrec, hpath⟩
      rcases mem_cnmChildren_shape children 0 p (d + 1) rec hrec with ⟨j, t, _, ht⟩
      rw [ht] at hpath
      have hlen := congrArg List.length hpath
      simp at hlen
    · exact cnmChildren_paths_nodup children 0 p (d + 1)

theorem cnmChildren_paths_nodup : ∀ (cs : List Dom) (i : Nat) (p : List Nat) (d : Nat),
    ((cnmChildren cs i p d).map (·.path)).Nodup
  | [], i, p, d => by rw [cnmChildren]; exact List.nodup_nil
  | c :: rest, i, p, d => by
    rw [cnmChildren]
    by_cases hel : isElemNode c = true
    · rw [if_pos hel, List.map_append]
      apply List.nodup_append.mpr
      refine ⟨cnmNode_paths_nodup c (p ++ [i]) d p,
        cnmChildren_paths_nodup rest (i + 1) p d, ?_⟩
      intro x hx1 hx2
      rcases List.mem_map.mp hx1 with ⟨rec1, hrec1, hp1⟩
      rcases List.mem_map.mp hx2 with ⟨rec2, hrec2, hp2⟩
      rcases mem_cnmNode_shape c (p ++ [i]) d p rec1 hrec1 with ⟨t1, ht1⟩
      rcases mem_cnmChildren_shape rest (i + 1) p d rec2 hrec2 with ⟨j, t2, hj, ht2⟩
      have heq : rec1.path = rec2.path := hp1.trans hp2.symm
      rw [ht1, ht2] at heq
      have heq2 : p ++ i :: t1 = p ++ j :: t2 := by simpa using heq
      have := List.append_cancel_left heq2
      have hij : i = j := (List.cons.injEq _ _ _ _).mp this |>.1
      omega
    · rw [if_neg hel]
      exact cnmChildren_paths_nodup rest i p d

end

theorem createNodeMap_paths_nodup (f : List Dom) :
    ((createNodeMap f).map (·.path)).Nodup :=
  cnmChildren_paths_nodup f 0 [] 0

theorem insByDepth_perm (r : NodeRec) (l : List NodeRec) :
    List.Perm (insByDepth r l) (r :: l) := by
  induction l with
  | nil => exact List.Perm.refl _
  | cons a as ih =>
    rw [insByDepth]
    by_cases h : r.depth ≤ a.depth
    · rw [if_pos h]
    · rw [if_neg h]
      exact (List.Perm.cons a ih).trans (List.Perm.swap r a as)

theorem sortByDepth_perm (l : List NodeRec) :
    List.Perm (sortByDepth l) l := by
  induction l with
  | nil => exact List.Perm.refl _
  | cons a as ih =>
    rw [sortByDepth]
    exact (insByDepth_perm a (sortByDepth as)).trans (List.Perm.cons a ih)

theorem sortByDepth_paths_nodup (l : List NodeRec)
    (h : (l.map (·.path)).Nodup) : ((sortByDepth l).map (·.path)).Nodup :=
  (((sortByDepth_perm l).map (·.path)).nodup_iff).mpr h
theorem containsTrueIff {α : Type} [BEq α] [LawfulBEq α] (l : List α) (a : α) :
    l.contains a = true ↔ a ∈ l := by
  simp

theorem find_go_past {α : Type} (p : α → Bool) :
    ∀ (l₁ : List α), (∀ x ∈ l₁, p x = false) → ∀ l₂ : List α,
      (l₁ ++ l₂).find? p = l₂.find? p
  | [], _, l₂ => rfl
  | a :: as, h, l₂ => by
    rw [List.cons_append,
      List.find?_cons_of_neg _ (by simp [h a (List.mem_cons_self a as)])]
    exact find_go_past p as (fun x hx => h x (List.mem_cons_of_mem a hx)) l₂

theorem exactStep_found (oldM newM sortedNew : List NodeRec) (st : AlignSt)
    (r q : NodeRec)
    (hanc : hasHLAncestor oldM st.flagsOld r.path = false)
    (hfind : sortedNew.find? (fun q =>
      !(hasHLAncestor newM st.flagsNew q.path || st.processedNew.contains q.path) &&
      r.signature == q.signature && r.textContent == q.textContent) = some q) :
    exactStep oldM newM sortedNew st r =
      { st with
        mapping := st.mapping ++ [(r.path, q.path)]
        processedOld := r.path :: st.processedOld
        processedNew := q.path :: st.processedNew } := by
  simp only [exactStep, hanc, Bool.false_eq_true, if_false, hfind]

theorem exactPassGo_self (M S : List NodeRec)
    (hnodup : (S.map (·.path)).Nodup) :
    ∀ (T D : List NodeRec) (st : AlignSt), S = D ++ T →
      st.flagsOld = [] → st.flagsNew = [] →
      (∀ x, x ∈ st.processedOld ↔ x ∈ D.map (·.path)) →
      (∀ x, x ∈ st.processedNew ↔ x ∈ D.map (·.path)) →
      (exactPassGo M M S T st).flagsOld = [] ∧
      (exactPassGo M M S T st).flagsNew = [] ∧
      (∀ x, x ∈ (exactPassGo M M S T st).processedOld ↔ x ∈ S.map (·.path)) ∧
      (∀ x, x ∈ (exactPassGo M M S T st).processedNew ↔ x ∈ S.map (·.path)) ∧
      (exactPassGo M M S T st).highlights = st.highlights ∧
      (exactPassGo M M S T st).removed = st.removed ∧
      (exactPassGo M M S T st).added = st.added
  | [], D, st, hS, hfO, hfN, hpO, hpN => by
    rw [exactPassGo]
    rw [List.append_nil] at hS
    subst hS
    exact ⟨hfO, hfN, hpO, hpN, rfl, rfl, rfl⟩
  | r :: T', D, st, hS, hfO, hfN, hpO, hpN => by
    have hrD : r.path ∉ D.map (·.path) := by
      intro hmem
      have hmaps : (S.map (·.path)) = D.map (·.path) ++ r.path :: T'.map (·.path) := by
        rw [hS]; simp
      rw [hmaps] at hnodup
      rcases List.nodup_append.mp hnodup with ⟨_, _, hdisj⟩
      exact hdisj hmem (List.mem_cons_self _ _)
    have hanc : hasHLAncestor M st.flagsOld r.path = false := by
      rw [hfO]; exact hasHLAncestor_no_flags M r.path
    have hancN : hasHLAncestor M st.flagsNew r.path = false := by
      rw [hfN]; exact hasHLAncestor_no_flags M r.path
    have hmemN : r.path ∉ st.processedNew := fun hm => hrD ((hpN r.path).mp hm)
    have hfind : S.find? (fun q =>
        !(hasHLAncestor M st.flagsNew q.path || st.processedNew.contains q.path) &&
        r.signature == q.signature && r.textContent == q.textContent) = some r := by
      rw [hS]
      rw [find_go_past _ D ?hD (r :: T')]
      case hD =>
        intro d hd
        have hdm2 : d.path ∈ st.processedNew :=
          (hpN d.path).mpr (List.mem_map_of_mem _ hd)
        simp [hdm2]
      exact List.find?_cons_of_pos _ (by simp [hancN, hmemN])
    have hstep := exactStep_found M M S st r r hanc hfind
    rw [exactPassGo, hstep]
    have hrec := exactPassGo_self M S hnodup T' (D ++ [r])
      { st with
        mapping := st.mapping ++ [(r.path, r.path)]
        processedOld := r.path :: st.processedOld
        processedNew := r.path :: st.processedNew }
      (by rw [hS]; simp) hfO hfN
      (by
        intro x
        simp only [List.mem_cons, List.map_append, List.map_cons, List.map_nil,
          List.mem_append, List.mem_singleton]
        rw [hpO x]
        tauto)
      (by
        intro x
        simp only [List.mem_cons, List.map_append, List.map_cons, List.map_nil,
          List.mem_append, List.mem_singleton]
        rw [hpN x]
        tauto)
    exact hrec

theorem structPassGo_skip (oldM newM sortedNew : List NodeRec)
    (dm : String → String → Except String (List DiffOp))
    (cleanup : List DiffOp → List DiffOp) :
    ∀ (T : List NodeRec) (st : AlignSt),
      (∀ r ∈ T, st.processedOld.contains r.path = true) →
      structPassGo oldM newM sortedNew dm cleanup T st = .ok st
  | [], st, _ => rfl
  | r :: rest, st, h => by
    have hstep : structStep oldM newM sortedNew dm cleanup st r = .ok st := by
      rw [structStep, if_pos (by
        rw [Bool.or_eq_true]
        exact Or.inl (h r (List.mem_cons_self r rest)))]
    rw [structPassGo, hstep]
    exact structPassGo_skip oldM newM sortedNew dm cleanup rest st
      (fun r' hr' => h r' (List.mem_cons_of_mem r hr'))

theorem residualOldGo_skip (oldM : List NodeRec) :
    ∀ (T : List NodeRec) (st : AlignSt),
      (∀ r ∈ T, st.processedOld.contains r.path = true) →
      residualOldGo oldM T st = st
  | [], st, _ => rfl
  | r :: rest, st, h => by
    have hstep : residualOldStep oldM st r = st := by
      rw [residualOldStep, if_pos (by
        rw [Bool.or_eq_true]
        exact Or.inl (h r (List.mem_cons_self r rest)))]
    rw [residualOldGo, hstep]
    exact residualOldGo_skip oldM rest st
      (fun r' hr' => h r' (List.mem_cons_of_mem r hr'))

theorem residualNewGo_skip (newM : List NodeRec) :
    ∀ (T : List NodeRec) (st : AlignSt),
      (∀ r ∈ T, st.processedNew.contains r.path = true) →
      residualNewGo newM T st = st
  | [], st, _ => rfl
  | r :: rest, st, h => by
    have hstep : residualNewStep newM st r = st := by
      rw [residualNewStep, if_pos (by
        rw [Bool.or_eq_true]
        exact Or.inl (h r (List.mem_cons_self r rest)))]
    rw [residualNewGo, hstep]
    exact residualNewGo_skip newM rest st
      (fun r' hr' => h r' (List.mem_cons_of_mem r hr'))

theorem deepCompareE_self (dm : String → String → Except String (List DiffOp))
    (cleanup : List DiffOp → List DiffOp) (f : List Dom) :
    ∃ st : AlignSt, deepCompareE dm cleanup f f = .ok st ∧
      st.highlights = [] ∧ st.removed = [] ∧ st.added = [] := by
  have hnodup := sortByDepth_paths_nodup (createNodeMap f) (createNodeMap_paths_nodup f)
  obtain ⟨hfO, hfN, hpO, hpN, hhl, hrem, hadd⟩ :=
    exactPassGo_self (createNodeMap f) (sortByDepth (createNodeMap f)) hnodup
      (sortByDepth (createNodeMap f)) [] initSt (by simp) rfl rfl
      (by intro x; simp [initSt]) (by intro x; simp [initSt])
  refine ⟨exactPassGo (createNodeMap f) (createNodeMap f)
      (sortByDepth (createNodeMap f)) (sortByDepth (createNodeMap f)) initSt,
    ?_, hhl, hrem, hadd⟩
  have hprocO : ∀ r ∈ sortByDepth (createNodeMap f),
      (exactPassGo (createNodeMap f) (createNodeMap f)
        (sortByDepth (createNodeMap f)) (sortByDepth (createNodeMap f))
        initSt).processedOld.contains r.path = true := fun r hr =>
    (containsTrueIff _ _).mpr ((hpO r.path).mpr (List.mem_map_of_mem _ hr))
  have hprocN : ∀ r ∈ sortByDepth (createNodeMap f),
      (exactPassGo (createNodeMap f) (createNodeMap f)
        (sortByDepth (createNodeMap f)) (sortByDepth (createNodeMap f))
        initSt).processedNew.contains r.path = true := fun r hr =>
    (containsTrueIff _ _).mpr ((hpN r.path).mpr (List.mem_map_of_mem _ hr))
  simp only [deepCompareE,
    structPassGo_skip (createNodeMap f) (createNodeMap f)
      (sortByDepth (createNodeMap f)) dm cleanup (sortByDepth (createNodeMap f)) _ hprocO,
    residualOldGo_skip (createNodeMap f) (sortByDepth (createNodeMap f)) _ hprocO,
    residualNewGo_skip (createNodeMap f) (sortByDepth (createNodeMap f)) _ hprocN]
theorem computeChangesGo_all_equal :
    ∀ (l : List DiffOp) (a b : Nat), (∀ d ∈ l, d.1 = 0) →
      computeChangesGo l a b = ([], [])
  | [], _, _, _ => rfl
  | (op, text) :: rest, a, b, h => by
    rw [computeChangesGo, if_pos (h (op, text) (List.mem_cons_self _ _))]
    exact computeChangesGo_all_equal rest _ _
      (fun d hd => h d (List.mem_cons_of_mem _ hd))

theorem eqDiffOf_chain_ops (x : String) :
    ∀ d ∈ forceDiffByWords (restoreAll (eqDiffOf x)), d.1 = 0 := by
  intro d hd
  by_cases hx : x = ""
  · rw [hx] at hd
    simp [eqDiffOf, restoreAll, forceDiffByWords] at hd
  · rw [eqDiffOf, if_neg hx] at hd
    simp only [restoreAll, List.map_cons, List.map_nil, forceDiffByWords,
      List.flatMap_cons, List.flatMap_nil, fdbwFrag, decide_True, if_true,
      List.append_nil, List.mem_singleton] at hd
    rw [hd]

theorem computeChanges_eqDiff (x : String) :
    computeChanges (forceDiffByWords (restoreAll (eqDiffOf x))) = ([], []) :=
  computeChangesGo_all_equal _ 0 0 (eqDiffOf_chain_ops x)

/-- C3.  Corrected claim: on byte-identical inputs the orchestrator takes
the general diff path (the structural-only branch requires the HTML strings
to differ), the word diff of the equal texts yields a single `equal` op, so
no change ranges are produced, the Node Aligner's exact pass matches every
node with itself, and no `diff-removed`/`diff-added`/`diff-node-removed`/
`diff-node-added` marker is emitted — but `markWhitespaceChanges` still runs
on both trees, so the result is unmutated only when no text node contains
two consecutive spaces (`hnd`); a double space would be wrapped in a
`diff-whitespace` span even though the inputs are identical (see the
counterexample).  `dm` and `cleanup` are the external diff collaborators,
assumed to produce a single `equal` op on equal inputs and to leave it
alone. -/
theorem c3_identical_inputs (parse : String → List Dom)
    (dm : String → String → Except String (List DiffOp))
    (cleanup : List DiffOp → List DiffOp) (s : String)
    (hnd : noDblList (parse s) = true)
    (hdm : dm (mapSpaces (domTextL (parse s))) (mapSpaces (domTextL (parse s))) =
      .ok (eqDiffOf (mapSpaces (domTextL (parse s)))))
    (hcl : cleanup (restoreAll (eqDiffOf (mapSpaces (domTextL (parse s))))) =
      restoreAll (eqDiffOf (mapSpaces (domTextL (parse s))))) :
    processSideBySideDiffE parse dm cleanup s s = .ok (parse s, parse s) := by
  have hcond : ¬(domTextL (parse s) = domTextL (parse s) ∧ s ≠ s) :=
    fun h => h.2 rfl
  obtain ⟨st, hdeep, hh, hr, ha⟩ := deepCompareE_self dm cleanup (parse s)
  have hws : markWhitespaceChangesF (parse s) = parse s := markWsList_id (parse s) hnd
  have hstruct : markStructuralChangesE dm cleanup (parse s) (parse s) =
      .ok (parse s, parse s) := by
    rw [markStructuralChangesE, hdeep]
    simp only [markStructuralApply, hh, hr, ha, List.foldl_nil, hws]
  have hperf : performDiffE dm cleanup (domTextL (parse s)) (domTextL (parse s)) =
      .ok (forceDiffByWords (restoreAll (eqDiffOf (mapSpaces (domTextL (parse s)))))) := by
    simp only [performDiffE, hdm, hcl]
  have hhl : highlightChangesE dm cleanup (parse s) (parse s)
      (forceDiffByWords (restoreAll (eqDiffOf (mapSpaces (domTextL (parse s)))))) =
      .ok (parse s, parse s) := by
    rw [highlightChangesE, hstruct]
    simp only [computeChanges_eqDiff, applyTextNodeChangesF, if_true, decide_True]
  rw [processSideBySideDiffE, if_neg hcond]
  simp only [hperf, hhl]

/-- A modelled browser parser for the C3 witness: every HTML string parses
to a single paragraph whose text has no double space. -/
def c3WitParse : String → List Dom := fun _ => [Dom.elem "p" [] [Dom.text "ab"]]

theorem c3_witness :
    noDblList (c3WitParse "x") = true ∧
    processSideBySideDiffE c3WitParse dmModelE cleanupId "x" "x" =
      .ok (c3WitParse "x", c3WitParse "x") :=
  ⟨by decide, c3_identical_inputs c3WitParse dmModelE cleanupId "x"
    (by decide) (by decide) rfl⟩

/-- A modelled browser parser whose output contains a double space. -/
def c3DemoParse : String → List Dom := fun _ => [Dom.elem "p" [] [Dom.text "a  b"]]

/-- C3 counterexample: on byte-identical inputs whose parsed tree holds the
text `"a  b"` (a double space), the orchestrator succeeds but returns an old
tree that carries a `diff-whitespace` marker and differs from the parsed
input — markers are emitted and the tree is mutated, refuting the claim as
stated. -/
theorem c3_counterexample :
    (match processSideBySideDiffE c3DemoParse dmModelE cleanupId "x" "x" with
     | .ok r => containsClassL r.1 "diff-whitespace" && !domBEqL r.1 (c3DemoParse "x")
     | .error _ => false) = true := by decide
end RTDiff
